import Mathlib

/-!
# Block aggregation and ordering of `tools/perf/util/block-info.c`

A shallow embedding of the block comparator `block_info__cmp` and of the
aggregation pass `block_info__process_sym`, followed by the properties proved
about them.

Conventions of the embedding.

* Unsigned 64-bit values (`u64`) are natural numbers; every operation that can
  wrap is written with an explicit `% 2 ^ 64`.  Signed results (`int64_t`,
  `int`) are integers.
* Pointers are natural numbers, `NULL` is `0`.  Pointer equality of two symbols
  is equality of these numbers; the pointed-to `struct symbol` is read through
  a memory `Nat → symbol`.
* Code that lives outside this file (the histogram store, the allocator, the
  annotation lookup) is a field of the structure `externs`; every theorem about
  the aggregation pass holds for all values of these fields.
* The structure declarations (`block-info.h`, `annotate.h`, `symbol.h`) are not
  among the sources at hand.  Offsets and cycle counts are `u64`, as the casts
  in `block_info__cmp` and the parameter `u64 total_cycles` show; sample counts
  are unsigned values, as the data model of the specification describes them.
* The loop of the aggregation pass takes fuel, because its 32-bit counter can
  wrap before it reaches the symbol size; `none` is "no result yet".
* The `double` operations and the `printf` conversions of `double` values are
  the fields of the structure `double_ops`: the column values are defined for
  any implementation of them, and no rounding behaviour is assumed.
-/

namespace BlockInfo

/-! ## Machine arithmetic -/

/-- The modulus of `u64` arithmetic. -/
def U64_MOD : Nat := 2 ^ 64

/-- The modulus of `unsigned int` arithmetic. -/
def UINT_MOD : Nat := 2 ^ 32

/-- The C expression `a - b` on two `u64` operands: subtraction modulo `2 ^ 64`. -/
def u64_sub (a b : Nat) : Nat := (a % U64_MOD + (U64_MOD - b % U64_MOD)) % U64_MOD

/-- The C expression `a + b` on two `u64` operands: addition modulo `2 ^ 64`. -/
def u64_add (a b : Nat) : Nat := (a + b) % U64_MOD

/-- The cast `(int64_t)x` of a `u64` value: values from `2 ^ 63` on are negative. -/
def s64_of_u64 (x : Nat) : Int :=
  if x % U64_MOD < 2 ^ 63 then ((x % U64_MOD : Nat) : Int)
  else ((x % U64_MOD : Nat) : Int) - (U64_MOD : Int)

/-- The conversion of an `unsigned int` argument to an `int` parameter: values
from `2 ^ 31` on become negative. -/
def int_of_uint (i : Nat) : Int :=
  if i % UINT_MOD < 2 ^ 31 then ((i % UINT_MOD : Nat) : Int)
  else ((i % UINT_MOD : Nat) : Int) - (UINT_MOD : Int)

/-- The conversion of a signed value stored into a `u64` field: reduction
modulo `2 ^ 64`. -/
def u64_of_int (z : Int) : Nat := (z % (U64_MOD : Int)).toNat

/-! ## Data model -/

/-- The null pointer. -/
def NULL : Nat := 0

/-- The fields of `struct symbol` the file reads: the address range and the
name, a C string given by its bytes before the terminating NUL. -/
structure symbol where
  start : Nat
  end_ : Nat
  name : List Nat
deriving DecidableEq, Repr

/-- One bucket of the per-offset cycle histogram (`struct cyc_hist`), with the
fields `init_block_info` reads. -/
structure cyc_hist where
  start : Nat
  cycles : Nat
  cycles_aggr : Nat
  cycles_spark : List Int
  num : Nat
  num_aggr : Nat
deriving DecidableEq, Repr

/-- A block record (`struct block_info`).  `sym` is a pointer to the owning
symbol. -/
structure block_info where
  sym : Nat
  start : Nat
  end_ : Nat
  cycles : Nat
  cycles_aggr : Nat
  cycles_spark : List Int
  total_cycles : Nat
  num : Nat
  num_aggr : Nat
  refcnt : Nat
deriving DecidableEq, Repr

/-- The pair `he->ms` of a ranked entry: pointers to its mapping and symbol. -/
structure map_symbol where
  map : Nat
  sym : Nat
deriving DecidableEq, Repr

/-- The fields of `struct hist_entry` the file reads: `ms` and the block record
behind `he->block_info`. -/
structure hist_entry where
  ms : map_symbol
  block_info : block_info
deriving DecidableEq, Repr

/-- The scratch `struct addr_location` filled by the aggregation pass: zeroed,
then `map` and `sym` set. -/
structure addr_location where
  map : Nat
  sym : Nat
deriving DecidableEq, Repr

/-! ## The comparator -/

/-- The C library function `strcmp` on two NUL-terminated strings given by
their bytes before the terminator: the difference of the first pair of bytes
that differ (the terminator counts as byte `0`), and `0` when there is none. -/
def strcmp : List Nat → List Nat → Int
  | [], [] => 0
  | [], c :: _ => 0 - (c : Int)
  | c :: _, [] => (c : Int)
  | a :: as, b :: bs => if a = b then strcmp as bs else (a : Int) - (b : Int)

/-- The function `block_info__cmp` (lines 68-101).  `mem` reads the
`struct symbol` behind a symbol pointer.  The statements after the
`if`/`else` at lines 97-100 are unreachable and have no counterpart here. -/
def block_info__cmp (mem : Nat → symbol) (left right : hist_entry) : Int :=
  let bi_l := left.block_info
  let bi_r := right.block_info
  if bi_l.sym = NULL ∨ bi_r.sym = NULL then
    if bi_l.sym = NULL ∧ bi_r.sym = NULL then 0
    else if bi_l.sym = NULL then -1
    else 1
  else if bi_l.sym = bi_r.sym then
    if bi_l.start = bi_r.start then
      if bi_l.end_ = bi_r.end_ then 0
      else s64_of_u64 (u64_sub bi_r.end_ bi_l.end_)
    else s64_of_u64 (u64_sub bi_r.start bi_l.start)
  else
    let cmp := strcmp (mem bi_l.sym).name (mem bi_r.sym).name
    cmp

/-! ## The aggregation pass -/

/-- The field `cycles_hist` of `notes->src`: `none` is the null pointer,
otherwise the bucket array, read by index. -/
structure annotated_source where
  cycles_hist : Option (Nat → cyc_hist)

/-- The field `src` of `struct annotation`: `none` is the null pointer. -/
structure annotation where
  src : Option annotated_source

/-- The code this file calls and does not define, over a world `W` that holds
the heap and the histogram store.

* `NUM_SPARKS`: the length of the `cycles_spark` arrays.
* `symbol__size sym`: the value of `symbol__size`, a `size_t`.
* `symbol__annotation sym`: the annotation of a symbol, `none` for `NULL`.
* `zalloc w`: whether the allocation returned memory, and the world after it.
* `free w`: the world after a record is freed.
* `hists__add_entry_block w al bi`: whether the call returned an entry
  (`false` is `NULL`), and the world after it. -/
structure externs (W : Type) where
  NUM_SPARKS : Nat
  symbol__size : Nat → Nat
  symbol__annotation : Nat → Option annotation
  zalloc : W → Bool × W
  free : W → W
  hists__add_entry_block : W → addr_location → block_info → Bool × W

variable {W : Type}

/-- The function `block_info__get` (lines 46-51) on a non-null record. -/
def block_info__get (bi : block_info) : block_info :=
  { bi with refcnt := bi.refcnt + 1 }

/-- The function `block_info__put` (lines 53-57) on a non-null record: the
record is freed when the decremented count is zero. -/
def block_info__put (x : externs W) (bi : block_info) (w : W) : W :=
  if bi.refcnt - 1 = 0 then x.free w else w

/-- The function `block_info__new` (lines 59-66): a zeroed record with
reference count one, or `none` when `zalloc` returns `NULL`. -/
def block_info__new (x : externs W) (w : W) : Option block_info × W :=
  match x.zalloc w with
  | (true, w1) =>
    (some { sym := NULL, start := 0, end_ := 0, cycles := 0, cycles_aggr := 0,
            cycles_spark := List.replicate x.NUM_SPARKS 0, total_cycles := 0,
            num := 0, num_aggr := 0, refcnt := 1 }, w1)
  | (false, w1) => (none, w1)

/-- The function `init_block_info` (lines 103-118).  `offset` is the `int`
parameter; storing it into the `u64` field `end` reduces it modulo `2 ^ 64`.
The `memcpy` copies the whole `cycles_spark` array. -/
def init_block_info (bi : block_info) (sym : Nat) (ch : cyc_hist) (offset : Int)
    (total_cycles : Nat) : block_info :=
  { bi with
    sym := sym
    start := ch.start
    end_ := u64_of_int offset
    cycles := ch.cycles
    cycles_aggr := ch.cycles_aggr
    num := ch.num
    num_aggr := ch.num_aggr
    total_cycles := total_cycles
    cycles_spark := ch.cycles_spark }

/-- The `for` loop of `block_info__process_sym` (lines 139-159), started at
counter `i` with the local `cycles` and the world `w`.  The counter is an
`unsigned int`: its increment wraps at `2 ^ 32`.  Each unit of `fuel` pays for
one evaluation of the loop condition; `none` means the fuel ran out.  The
result is the return value when the loop ends the function (`-1`), or `0` when
the loop is left normally, with the local `cycles` and the world. -/
def process_sym_loop (x : externs W) (sym : Nat) (al : addr_location)
    (ch : Nat → cyc_hist) (total_cycles : Nat) :
    Nat → Nat → Nat → W → Option (Int × Nat × W)
  | 0, _, _, _ => none
  | fuel + 1, i, cycles, w =>
    if i < x.symbol__size sym then
      if (ch i).num_aggr ≠ 0 then
        match block_info__new x w with
        | (none, w1) => some (-1, cycles, w1)
        | (some bi0, w1) =>
          let bi := init_block_info bi0 sym (ch i) (int_of_uint i) total_cycles
          let cycles1 := u64_add cycles (bi.cycles_aggr / bi.num_aggr)
          match x.hists__add_entry_block w1 al bi with
          | (false, w2) => some (-1, cycles1, block_info__put x bi w2)
          | (true, w2) =>
            process_sym_loop x sym al ch total_cycles fuel ((i + 1) % UINT_MOD) cycles1 w2
      else
        process_sym_loop x sym al ch total_cycles fuel ((i + 1) % UINT_MOD) cycles w
    else some (0, cycles, w)

/-- The function `block_info__process_sym` (lines 120-165).
`block_cycles_aggr` is the out-parameter: `none` is a null pointer, `some a`
points to the value `a`.  The result is the return value, the world and the
out-parameter after the call; `none` means the loop ran out of fuel. -/
def block_info__process_sym (x : externs W) (fuel : Nat) (he : hist_entry) (w : W)
    (block_cycles_aggr : Option Nat) (total_cycles : Nat) :
    Option (Int × W × Option Nat) :=
  if he.ms.map = NULL ∨ he.ms.sym = NULL then some (0, w, block_cycles_aggr)
  else
    let al : addr_location := { map := he.ms.map, sym := he.ms.sym }
    match x.symbol__annotation he.ms.sym with
    | none => some (0, w, block_cycles_aggr)
    | some notes =>
      match notes.src with
      | none => some (0, w, block_cycles_aggr)
      | some src =>
        match src.cycles_hist with
        | none => some (0, w, block_cycles_aggr)
        | some ch =>
          match process_sym_loop x he.ms.sym al ch total_cycles fuel 0 0 w with
          | none => none
          | some (ret, cycles, w1) =>
            if ret = 0 then
              some (0, w1, block_cycles_aggr.map (fun a => u64_add a cycles))
            else some (ret, w1, block_cycles_aggr)

/-! ## Column descriptors and the report of one event group -/

/-- The enumerators of `PERF_HPP_REPORT__BLOCK_*` that index the table
`block_columns`, in the order of the table. -/
inductive block_column where
  | TOTAL_CYCLES_PCT
  | LBR_CYCLES
  | CYCLES_PCT
  | AVG_CYCLES
  | RANGE
  | DSO
deriving DecidableEq, Repr

/-- The table `block_columns` (lines 16-44): the header name and the width of
each column. -/
def block_columns : block_column → String × Nat
  | .TOTAL_CYCLES_PCT => ("Sampled Cycles%", 15)
  | .LBR_CYCLES => ("Sampled Cycles", 14)
  | .CYCLES_PCT => ("Avg Cycles%", 11)
  | .AVG_CYCLES => ("Avg Cycles", 10)
  | .RANGE => ("[Program Block Range]", 70)
  | .DSO => ("Shared Object", 20)

/-- The fields of `struct block_fmt` the file reads and writes.  The function
pointers of the embedded `perf_hpp_fmt` are not represented: the functions
they point to are definitions of their own. -/
structure block_fmt where
  idx : Nat
  header : String
  width : Nat
  total_cycles : Nat
  block_cycles : Nat
deriving DecidableEq, Repr

/-- The fields of `struct block_report` outside the histogram store, which is
part of the world: the running cycle sum and the array `fmts` of
`PERF_HPP_REPORT__BLOCK_MAX_INDEX` column descriptors. -/
structure block_report where
  cycles : Nat
  fmts : List block_fmt
deriving DecidableEq, Repr

/-- The declarations and functions the report assembly uses and this file
does not define.

* `PERF_HPP_REPORT__BLOCK_MAX_INDEX`: the number of column descriptors.
* `enumerator c`: the numeric value of the enumerator of column `c`.
* `hists__init`, `perf_hpp_list__init`, `perf_hpp_list__column_register`,
  `perf_hpp_list__register_sort_field`, `hists__output_resort`: the world
  after the call; the column argument is given by its index. -/
structure report_externs (W : Type) where
  PERF_HPP_REPORT__BLOCK_MAX_INDEX : Nat
  enumerator : block_column → Nat
  hists__init : W → W
  perf_hpp_list__init : W → W
  perf_hpp_list__column_register : W → Nat → W
  perf_hpp_list__register_sort_field : W → Nat → W
  hists__output_resort : W → W

/-- A zeroed column descriptor, as `calloc` yields it. -/
def zero_fmt : block_fmt :=
  { idx := 0, header := "", width := 0, total_cycles := 0, block_cycles := 0 }

/-- The `switch (idx)` of `hpp_register`: the column whose enumerator is
`idx`, or `none` for the `default` label. -/
def column_of_index (rx : report_externs W) (idx : Nat) : Option block_column :=
  [block_column.TOTAL_CYCLES_PCT, block_column.LBR_CYCLES, block_column.CYCLES_PCT,
   block_column.AVG_CYCLES, block_column.RANGE, block_column.DSO].find?
    (fun c => decide (rx.enumerator c = idx))

/-- The function `init_block_header` (lines 327-338) for a descriptor whose
index is the enumerator of `col`: header and width come from the table.  The
`BUG_ON` does not fire, since `register_block_columns` passes indices below
`PERF_HPP_REPORT__BLOCK_MAX_INDEX`. -/
def init_block_header (col : block_column) (fmt : block_fmt) : block_fmt :=
  { fmt with header := (block_columns col).1, width := (block_columns col).2 }

/-- The function `hpp_register` (lines 340-376): the index is stored; for a
known column the header is initialised and the column registered, for any
other index the function returns early. -/
def hpp_register (rx : report_externs W) (fmt : block_fmt) (idx : Nat) (w : W) :
    block_fmt × W :=
  let fmt1 := { fmt with idx := idx }
  match column_of_index rx idx with
  | none => (fmt1, w)
  | some col => (init_block_header col fmt1, rx.perf_hpp_list__column_register w idx)

/-- The loop of `register_block_columns` (lines 378-383): `n` iterations from
counter `i`. -/
def register_block_columns (rx : report_externs W) :
    Nat → Nat → List block_fmt → W → List block_fmt × W
  | 0, _, fmts, w => (fmts, w)
  | n + 1, i, fmts, w =>
    let r := hpp_register rx (fmts.getD i zero_fmt) i w
    register_block_columns rx n (i + 1) (fmts.set i r.1) r.2

/-- The function `init_block_hist` (lines 385-395). -/
def init_block_hist (rx : report_externs W) (fmts : List block_fmt) (w : W) :
    List block_fmt × W :=
  let w1 := rx.perf_hpp_list__init (rx.hists__init w)
  let r := register_block_columns rx rx.PERF_HPP_REPORT__BLOCK_MAX_INDEX 0 fmts w1
  (r.1, rx.perf_hpp_list__register_sort_field r.2
    (rx.enumerator block_column.TOTAL_CYCLES_PCT))

/-- The `while` loop of `process_block_report` (lines 407-412) over the
entries of the group in tree order: each entry is handed to
`block_info__process_sym` with a pointer to the report's cycle sum, and the
return value is dropped.  The result is the world and the cycle sum after the
last entry; `none` means a pass ran out of fuel. -/
def process_entries (x : externs W) (fuel : Nat) (total_cycles : Nat) :
    List hist_entry → W → Nat → Option (W × Nat)
  | [], w, cycles => some (w, cycles)
  | he :: rest, w, cycles =>
    match block_info__process_sym x fuel he w (some cycles) total_cycles with
    | none => none
    | some (_, w1, acc) => process_entries x fuel total_cycles rest w1 (acc.getD cycles)

/-- The `for` loop at lines 414-417: `n` iterations from counter `i`, each
stamping the two totals on descriptor `i`. -/
def stamp_totals (total_cycles cycles : Nat) : Nat → Nat → List block_fmt → List block_fmt
  | 0, _, fmts => fmts
  | n + 1, i, fmts =>
    stamp_totals total_cycles cycles n (i + 1)
      (fmts.set i { fmts.getD i zero_fmt with
        total_cycles := total_cycles, block_cycles := cycles })

/-- The function `process_block_report` (lines 397-420) on the entries of one
group, given in tree order.  The result is the report and the world after the
call; the function has no return value.  `none` means a pass ran out of
fuel. -/
def process_block_report (x : externs W) (rx : report_externs W) (fuel : Nat)
    (hists : List hist_entry) (report : block_report) (w : W) (total_cycles : Nat) :
    Option (block_report × W) :=
  let r := init_block_hist rx report.fmts w
  match process_entries x fuel total_cycles hists r.2 report.cycles with
  | none => none
  | some (w1, cycles) =>
    some ({ cycles := cycles,
            fmts := stamp_totals total_cycles cycles
              rx.PERF_HPP_REPORT__BLOCK_MAX_INDEX 0 r.1 },
          rx.hists__output_resort w1)

/-- The loop of `block_info__create_report` (lines 433-438) over the groups of
the event list, each given by its entries: every group gets a zeroed report
of the array. -/
def create_report_loop (x : externs W) (rx : report_externs W) (fuel : Nat)
    (total_cycles : Nat) : List (List hist_entry) → W → Option (List block_report × W)
  | [], w => some ([], w)
  | hists :: rest, w =>
    match process_block_report x rx fuel hists
        { cycles := 0,
          fmts := List.replicate rx.PERF_HPP_REPORT__BLOCK_MAX_INDEX zero_fmt }
        w total_cycles with
    | none => none
    | some (report, w1) =>
      match create_report_loop x rx fuel total_cycles rest w1 with
      | none => none
      | some (reports, w2) => some (report :: reports, w2)

/-- The function `block_info__create_report` (lines 422-441).  The inner
`none` is the `NULL` returned when the array of reports cannot be allocated;
the outer `none` means a pass ran out of fuel. -/
def block_info__create_report (x : externs W) (rx : report_externs W) (fuel : Nat)
    (evlist : List (List hist_entry)) (w : W) (total_cycles : Nat) :
    Option (Option (List block_report) × W) :=
  match x.zalloc w with
  | (false, w1) => some (none, w1)
  | (true, w1) =>
    match create_report_loop x rx fuel total_cycles evlist w1 with
    | none => none
    | some (reports, w2) => some (some reports, w2)

/-! ## Column values -/

/-- The `double` operations and `printf` conversions the file uses, over a
type `F` of `double` values.  They are parameters: no rounding behaviour is
fixed.

* `of_u64 n`: the cast `(double)n` of a `u64`.
* `zero`, `lit n`: the literal `0.0` and the integer-valued literals
  `100.0`, `1000.0`, `1000000.0`.
* `mul`, `div`: the products and quotients.
* `fmt_1f`, `fmt_2f`: the text of the conversions `%.1f` and `%.2f`. -/
structure double_ops (F : Type) where
  of_u64 : Nat → F
  zero : F
  lit : Nat → F
  mul : F → F → F
  div : F → F → F
  fmt_1f : F → List Char
  fmt_2f : F → List Char

/-- The bytes `scnprintf` leaves in a buffer of `size` bytes before the
terminating NUL: the first `size - 1` characters of the formatted text. -/
def scnprintf_text (size : Nat) (text : List Char) : List Char :=
  text.take (size - 1)

/-- The conversion `%*s` with a non-negative width: the text, padded with
blanks on the left up to the width. -/
def pad_left (width : Nat) (text : List Char) : List Char :=
  List.replicate (width - text.length) ' ' ++ text

/-- The conversion `%7lx` of a `u64`: lower-case hexadecimal digits, padded
with blanks on the left up to seven characters. -/
def fmt_7lx (n : Nat) : List Char :=
  pad_left 7 (Nat.toDigits 16 n)

/-- The function `cycles_string` (lines 225-233): the text left in `buf`.  In
the last branch `cycles` is below `1000`, so the `int` that `%1d` reads is
`cycles` itself. -/
def cycles_string {F : Type} (ops : double_ops F) (cycles : Nat) (size : Nat) :
    List Char :=
  if cycles ≥ 1000000 then
    scnprintf_text size (ops.fmt_1f (ops.div (ops.of_u64 cycles) (ops.lit 1000000)) ++ ['M'])
  else if cycles ≥ 1000 then
    scnprintf_text size (ops.fmt_1f (ops.div (ops.of_u64 cycles) (ops.lit 1000)) ++ ['K'])
  else
    scnprintf_text size (Nat.toDigits 10 cycles)

/-- The function `block_cycles_pct_entry` (lines 248-265): the value
`100.0 * ratio` handed to `sprintf`, and the text left in `hpp->buf`, a buffer
of `hpp_size` bytes.  The local buffer of 16 bytes is taken to hold the text
of `sprintf`. -/
def block_cycles_pct_entry {F : Type} (ops : double_ops F) (fmt : block_fmt)
    (hpp_size : Nat) (he : hist_entry) : F × List Char :=
  let bi := he.block_info
  let ratio :=
    if fmt.block_cycles ≠ 0 ∧ bi.num_aggr ≠ 0 then
      let avg := bi.cycles_aggr / bi.num_aggr
      ops.div (ops.of_u64 avg) (ops.of_u64 fmt.block_cycles)
    else ops.zero
  let percent := ops.mul (ops.lit 100) ratio
  let buf := ops.fmt_2f percent ++ ['%']
  (percent, scnprintf_text hpp_size (pad_left fmt.width buf))

/-- The function `block_avg_cycles_entry` (lines 267-280): the text left in
`hpp->buf`.  The division is not guarded: `none` is the division by zero. -/
def block_avg_cycles_entry {F : Type} (ops : double_ops F) (fmt : block_fmt)
    (hpp_size : Nat) (he : hist_entry) : Option (List Char) :=
  let bi := he.block_info
  if bi.num_aggr = 0 then none
  else
    let cycles_buf := cycles_string ops (bi.cycles_aggr / bi.num_aggr) 16
    some (scnprintf_text hpp_size (pad_left fmt.width cycles_buf))

/-- The text of the range label when both source lines are resolved. -/
def srcline_label (start_line end_line : List Char) : List Char :=
  ['['] ++ start_line ++ [' ', '-', '>', ' '] ++ end_line ++ [']']

/-- The text of the range label made of the two hexadecimal offsets. -/
def hex_label (start end_ : Nat) : List Char :=
  ['['] ++ fmt_7lx start ++ [' ', '-', '>', ' '] ++ fmt_7lx end_ ++ [']']

/-- The function `block_range_entry` (lines 282-310).  `map__srcline map addr
sym` is the resolver: `none` is the pointer `SRCLINE_UNKNOWN`, `some line` any
other pointer, whatever the text behind it.  The result is the label left in
the local `buf` of 128 bytes and the text left in `hpp->buf`.  The write to
`symbol_conf` and the two calls of `free_srcline` do not bear on the text and
are left out. -/
def block_range_entry (mem : Nat → symbol)
    (map__srcline : Nat → Nat → Nat → Option (List Char)) (fmt : block_fmt)
    (hpp_size : Nat) (he : hist_entry) : List Char × List Char :=
  let bi := he.block_info
  let start_line := map__srcline he.ms.map (u64_add (mem bi.sym).start bi.start) he.ms.sym
  let end_line := map__srcline he.ms.map (u64_add (mem bi.sym).start bi.end_) he.ms.sym
  let buf :=
    match start_line, end_line with
    | some s, some e => scnprintf_text 128 (srcline_label s e)
    | _, _ => scnprintf_text 128 (hex_label bi.start bi.end_)
  (buf, scnprintf_text hpp_size (pad_left fmt.width buf))

/-! ## The aggregation pass as the specification words it -/

/-- The cycle histogram the pass reads for a symbol: `none` when the
annotation, its `src` or its `cycles_hist` is a null pointer. -/
def cycles_hist_of (x : externs W) (sym : Nat) : Option (Nat → cyc_hist) :=
  match x.symbol__annotation sym with
  | none => none
  | some notes =>
    match notes.src with
    | none => none
    | some src => src.cycles_hist

/-- The offsets among `i, i + 1, ..., i + n - 1` whose bucket has a nonzero
aggregated sample count, in increasing order. -/
def sampled_offsets (ch : Nat → cyc_hist) (i n : Nat) : List Nat :=
  (List.range' i n).filter (fun j => decide ((ch j).num_aggr ≠ 0))

/-- The block record the specification describes for offset `i`: the entry's
symbol, the bucket's recorded start, `end = i`, the counters and the sparkline
of bucket `i`, the session total, and one reference. -/
def spec_block (sym : Nat) (ch : Nat → cyc_hist) (total_cycles : Nat) (i : Nat) :
    block_info :=
  { sym := sym, start := (ch i).start, end_ := i, cycles := (ch i).cycles,
    cycles_aggr := (ch i).cycles_aggr, cycles_spark := (ch i).cycles_spark,
    total_cycles := total_cycles, num := (ch i).num, num_aggr := (ch i).num_aggr,
    refcnt := 1 }

/-- The block record the loop body builds at counter `i`: as `spec_block`,
except that `end` is the counter after its passage through the `int`
parameter `offset`. -/
def loop_block (sym : Nat) (ch : Nat → cyc_hist) (total_cycles : Nat) (i : Nat) :
    block_info :=
  { spec_block sym ch total_cycles i with end_ := u64_of_int (int_of_uint i) }

/-- Inserting records into the store one after the other: each record costs
one `zalloc` and one `hists__add_entry_block`; `none` when one of them
fails. -/
def insert_blocks (x : externs W) (al : addr_location) : W → List block_info → Option W
  | w, [] => some w
  | w, bi :: rest =>
    match x.zalloc w with
    | (false, _) => none
    | (true, w1) =>
      match x.hists__add_entry_block w1 al bi with
      | (false, _) => none
      | (true, w2) => insert_blocks x al w2 rest

/-- The sum over a list of records of `cycles_aggr / num_aggr`, with
truncating division. -/
def avg_cycles_sum (bs : List block_info) : Nat :=
  (bs.map (fun bi => bi.cycles_aggr / bi.num_aggr)).sum

/-- The records one call of `block_info__process_sym` hands to the store when
it runs to the end of the loop: none for an entry without mapping, symbol or
histogram, else the loop's record of every sampled offset below the symbol
size. -/
def emitted_blocks (x : externs W) (he : hist_entry) (total_cycles : Nat) :
    List block_info :=
  if he.ms.map = NULL ∨ he.ms.sym = NULL then []
  else
    match cycles_hist_of x he.ms.sym with
    | none => []
    | some ch =>
      (sampled_offsets ch 0 (x.symbol__size he.ms.sym)).map
        (loop_block he.ms.sym ch total_cycles)

/-- The world after the records of a pass are handed to the store one after
the other until the first failure: a failed `zalloc` ends the pass, a failed
`hists__add_entry_block` ends it after the record is put; nothing inserted
before is taken back. -/
def insert_until_failure (x : externs W) (al : addr_location) : W → List block_info → W
  | w, [] => w
  | w, bi :: rest =>
    match x.zalloc w with
    | (false, w1) => w1
    | (true, w1) =>
      match x.hists__add_entry_block w1 al bi with
      | (false, w2) => block_info__put x bi w2
      | (true, w2) => insert_until_failure x al w2 rest

/-- The sum over the entries of a group of the averages of their emitted
blocks. -/
def group_avg_cycles_sum (x : externs W) (total_cycles : Nat) (hists : List hist_entry) :
    Nat :=
  (hists.map (fun he => avg_cycles_sum (emitted_blocks x he total_cycles))).sum

/-- A column descriptor with the two totals stamped on it. -/
def stamped (total_cycles cycles : Nat) (fmt : block_fmt) : block_fmt :=
  { fmt with total_cycles := total_cycles, block_cycles := cycles }

/-- The externs `x` with another behaviour `g` of `hists__add_entry_block` on
records whose aggregated sample count is zero. -/
def with_zero_count_add (x : externs W) (g : W → addr_location → block_info → Bool × W) :
    externs W :=
  { x with
    hists__add_entry_block := fun w al bi =>
      if bi.num_aggr = 0 then g w al bi else x.hists__add_entry_block w al bi }

/-! ## Concrete inputs -/

/-- An entry whose block record has the given symbol pointer, start and end,
and zero metrics. -/
def entry_of (sym start end_ : Nat) : hist_entry :=
  { ms := { map := 0, sym := 0 }
    block_info := { sym := sym, start := start, end_ := end_, cycles := 0,
                    cycles_aggr := 0, cycles_spark := [], total_cycles := 0,
                    num := 0, num_aggr := 0, refcnt := 1 } }

/-- A symbol memory with two distinct symbols of the same name `f` (two static
functions of different compilation units): pointer `1` and every other
pointer. -/
def same_name_mem : Nat → symbol := fun p =>
  if p = 1 then { start := 4096, end_ := 4352, name := [102] }
  else { start := 8192, end_ := 8448, name := [102] }

/-- A bucket without samples. -/
def empty_bucket : cyc_hist :=
  { start := 0, cycles := 0, cycles_aggr := 0, cycles_spark := List.replicate 32 0,
    num := 0, num_aggr := 0 }

/-- A bucket with the given block start, cycle count and sample count, both
raw and aggregated. -/
def bucket_of (start cycles num : Nat) : cyc_hist :=
  { start := start, cycles := cycles, cycles_aggr := cycles,
    cycles_spark := List.replicate 32 0, num := num, num_aggr := num }

/-- The histogram of the end-to-end scenario: offset `5` with 2 samples, 100
cycles and block start `0`; offset `9` with 3 samples, 150 cycles and block
start `5`; no samples elsewhere. -/
def scenario_hist : Nat → cyc_hist := fun i =>
  if i = 5 then bucket_of 0 100 2
  else if i = 9 then bucket_of 5 150 3
  else empty_bucket

/-- A world that is the list of the records handed to the store, in call
order, where no allocation fails; every symbol has the size `size` and the
histogram `ch`. -/
def list_store (size : Nat) (ch : Nat → cyc_hist) : externs (List block_info) :=
  { NUM_SPARKS := 32
    symbol__size := fun _ => size
    symbol__annotation := fun _ => some { src := some { cycles_hist := some ch } }
    zalloc := fun w => (true, w)
    free := fun w => w
    hists__add_entry_block := fun w _ bi => (true, w ++ [bi]) }

/-- A world as `list_store` in which no symbol has an annotation. -/
def bare_store : externs (List block_info) :=
  { list_store 10 scenario_hist with symbol__annotation := fun _ => none }

/-- A ranked entry with mapping pointer `map` and symbol pointer `sym`. -/
def ranked_entry (map sym : Nat) : hist_entry :=
  { ms := { map := map, sym := sym }, block_info := (entry_of 0 0 0).block_info }

/-- A histogram whose only sampled offset is `2 ^ 31`. -/
def far_hist : Nat → cyc_hist := fun i =>
  if i = 2 ^ 31 then bucket_of 0 7 1 else empty_bucket

/-- The histogram without any sample. -/
def empty_hist : Nat → cyc_hist := fun _ => empty_bucket

/-- The two records of the end-to-end scenario for the symbol at pointer `1`
and the session total `1000`. -/
def scenario_blocks : List block_info :=
  [ { sym := 1, start := 0, end_ := 5, cycles := 100, cycles_aggr := 100,
      cycles_spark := List.replicate 32 0, total_cycles := 1000, num := 2,
      num_aggr := 2, refcnt := 1 },
    { sym := 1, start := 5, end_ := 9, cycles := 150, cycles_aggr := 150,
      cycles_spark := List.replicate 32 0, total_cycles := 1000, num := 3,
      num_aggr := 3, refcnt := 1 } ]

/-- The record the pass builds for the bucket of `far_hist` at offset
`2 ^ 31`: its `end` is `2 ^ 64 - 2 ^ 31`. -/
def far_block : block_info :=
  { sym := 1, start := 0, end_ := 18446744071562067968, cycles := 7, cycles_aggr := 7,
    cycles_spark := List.replicate 32 0, total_cycles := 1000, num := 1,
    num_aggr := 1, refcnt := 1 }

/-- A world with an allocation oracle: `allocs` lists the outcomes of the
coming allocations, head first (none left: success), `store` the records
handed to the store, in call order. -/
structure oracle_world where
  allocs : List Bool
  store : List block_info
deriving DecidableEq, Repr

/-- The externs over `oracle_world`: `zalloc` consumes one outcome of the
oracle, `hists__add_entry_block` appends and succeeds; every symbol has the
size `size` and the histogram `ch`. -/
def oracle_store (size : Nat) (ch : Nat → cyc_hist) : externs oracle_world :=
  { NUM_SPARKS := 32
    symbol__size := fun _ => size
    symbol__annotation := fun _ => some { src := some { cycles_hist := some ch } }
    zalloc := fun w =>
      match w.allocs with
      | [] => (true, w)
      | ok :: rest => (ok, { w with allocs := rest })
    free := fun w => w
    hists__add_entry_block := fun w _ bi => (true, { w with store := w.store ++ [bi] }) }

/-- Report externs that leave the world alone, with the six columns numbered
in the order of the table. -/
def plain_report (W : Type) : report_externs W :=
  { PERF_HPP_REPORT__BLOCK_MAX_INDEX := 6
    enumerator := fun c =>
      match c with
      | .TOTAL_CYCLES_PCT => 0
      | .LBR_CYCLES => 1
      | .CYCLES_PCT => 2
      | .AVG_CYCLES => 3
      | .RANGE => 4
      | .DSO => 5
    hists__init := fun w => w
    perf_hpp_list__init := fun w => w
    perf_hpp_list__column_register := fun w _ => w
    perf_hpp_list__register_sort_field := fun w _ => w
    hists__output_resort := fun w => w }

/-- The `double` operations read as exact rational arithmetic, without any
text for the `printf` conversions. -/
def exact_ops : double_ops ℚ :=
  { of_u64 := fun n => (n : ℚ)
    zero := 0
    lit := fun n => (n : ℚ)
    mul := fun a b => a * b
    div := fun a b => a / b
    fmt_1f := fun _ => []
    fmt_2f := fun _ => [] }

/-- An entry whose block record has the aggregated cycle count `cycles_aggr`
and the aggregated sample count `num_aggr`, for the symbol at pointer `1`. -/
def sampled_entry (cycles_aggr num_aggr : Nat) : hist_entry :=
  { ms := { map := 1, sym := 1 }
    block_info := { sym := 1, start := 16, end_ := 31, cycles := cycles_aggr,
                    cycles_aggr := cycles_aggr, cycles_spark := [], total_cycles := 1000,
                    num := num_aggr, num_aggr := num_aggr, refcnt := 1 } }

/-- A column descriptor of width `10` stamped with the group's cycle sum
`block_cycles`. -/
def stamped_fmt (block_cycles : Nat) : block_fmt :=
  { idx := 2, header := "Avg Cycles%", width := 10, total_cycles := 1000,
    block_cycles := block_cycles }

/-- A resolver that knows the source line of address `4096 + 16` only. -/
def half_resolver : Nat → Nat → Nat → Option (List Char) := fun _ addr _ =>
  if addr = 4112 then some ['a', '.', 'c', ':', '7'] else none

/-- A resolver that gives every address the source line `a.c:7`. -/
def full_resolver : Nat → Nat → Nat → Option (List Char) := fun _ _ _ =>
  some ['a', '.', 'c', ':', '7']

/-- The report of the scenario group with two entries of the same symbol:
the cycle sum is `50 + 50 + 50 + 50` and the six descriptors carry the session
total `1000` and the cycle sum. -/
def scenario_report : block_report :=
  { cycles := 200
    fmts :=
      [ { idx := 0, header := "Sampled Cycles%", width := 15, total_cycles := 1000,
          block_cycles := 200 },
        { idx := 1, header := "Sampled Cycles", width := 14, total_cycles := 1000,
          block_cycles := 200 },
        { idx := 2, header := "Avg Cycles%", width := 11, total_cycles := 1000,
          block_cycles := 200 },
        { idx := 3, header := "Avg Cycles", width := 10, total_cycles := 1000,
          block_cycles := 200 },
        { idx := 4, header := "[Program Block Range]", width := 70, total_cycles := 1000,
          block_cycles := 200 },
        { idx := 5, header := "Shared Object", width := 20, total_cycles := 1000,
          block_cycles := 200 } ] }

/-- A histogram whose only sampled offset is `0`. -/
def first_hist : Nat → cyc_hist := fun i =>
  if i = 0 then bucket_of 0 7 1 else empty_bucket

/-- The record the pass builds for the bucket of `first_hist` at offset `0`. -/
def first_block : block_info :=
  { sym := 1, start := 0, end_ := 0, cycles := 7, cycles_aggr := 7,
    cycles_spark := List.replicate 32 0, total_cycles := 1000, num := 1,
    num_aggr := 1, refcnt := 1 }

/-- The ranked entry `he` with the block record `bi` attached. -/
def with_block (he : hist_entry) (bi : block_info) : hist_entry :=
  { he with block_info := bi }

/-! ## Properties of the comparator -/

theorem s64_sub_neg_iff (a b : Nat) (ha : a < 2 ^ 64) (hb : b < 2 ^ 64) :
    s64_of_u64 (u64_sub a b) < 0 ↔ (a < b ∧ b ≤ a + 2 ^ 63) ∨ (b + 2 ^ 63 ≤ a) := by
  unfold s64_of_u64 u64_sub U64_MOD
  split_ifs <;> omega

theorem s64_sub_pos_iff (a b : Nat) (ha : a < 2 ^ 64) (hb : b < 2 ^ 64) :
    0 < s64_of_u64 (u64_sub a b) ↔ (b < a ∧ a < b + 2 ^ 63) ∨ (a + 2 ^ 63 < b) := by
  unfold s64_of_u64 u64_sub U64_MOD
  split_ifs <;> omega

theorem s64_sub_ne_zero (a b : Nat) (ha : a < 2 ^ 64) (hb : b < 2 ^ 64) (hab : a ≠ b) :
    s64_of_u64 (u64_sub a b) ≠ 0 := by
  unfold s64_of_u64 u64_sub U64_MOD
  split_ifs <;> omega

theorem sign_flip (x y : Int) (h1 : x < 0 ↔ 0 < y) (h2 : 0 < x ↔ y < 0) :
    Int.sign x = - Int.sign y := by
  rcases lt_trichotomy x 0 with h | h | h
  · have hy := h1.mp h
    rw [Int.sign_eq_neg_one_of_neg h, Int.sign_eq_one_of_pos hy]
  · subst h
    have hy : y = 0 := by
      rcases lt_trichotomy y 0 with h' | h' | h'
      · exact absurd (h2.mpr h') (lt_irrefl _)
      · exact h'
      · exact absurd (h1.mpr h') (lt_irrefl _)
    simp [hy]
  · have hy := h2.mp h
    rw [Int.sign_eq_one_of_pos h, Int.sign_eq_neg_one_of_neg hy]; simp

theorem strcmp_self (s : List Nat) : strcmp s s = 0 := by
  induction s with
  | nil => rfl
  | cons c cs ih => simp [strcmp, ih]

theorem strcmp_antisymm (s t : List Nat) : strcmp s t = - strcmp t s := by
  induction s generalizing t with
  | nil =>
    cases t with
    | nil => simp [strcmp]
    | cons c cs => simp [strcmp]
  | cons a as ih =>
    cases t with
    | nil => simp [strcmp]
    | cons b bs =>
      by_cases hab : a = b
      · subst hab
        simp [strcmp, ih bs]
      · have hba : ¬ b = a := fun h => hab h.symm
        simp [strcmp, hab, hba]

/-- C1 (counterexample): two records of one symbol whose starts are `0` and
`2 ^ 63` compare as negative in both directions, so a negative `cmp(a, b)`
does not give a positive `cmp(b, a)`. -/
theorem block_info__cmp_antisymm_fails :
    block_info__cmp same_name_mem (entry_of 1 0 0) (entry_of 1 (2 ^ 63) 0) < 0 ∧
    ¬ 0 < block_info__cmp same_name_mem (entry_of 1 (2 ^ 63) 0) (entry_of 1 0 0) := by
  decide

/-- C1 (amended): for every pair of block records with unsigned 64-bit offsets
whose starts do not differ by exactly `2 ^ 63` and whose ends do not differ by
exactly `2 ^ 63`, the sign of `cmp(a, b)` is the negation of the sign of
`cmp(b, a)`. -/
theorem block_info__cmp_antisymm (mem : Nat → symbol) (a b : hist_entry)
    (has : a.block_info.start < 2 ^ 64) (hbs : b.block_info.start < 2 ^ 64)
    (hae : a.block_info.end_ < 2 ^ 64) (hbe : b.block_info.end_ < 2 ^ 64)
    (hs : a.block_info.start + 2 ^ 63 ≠ b.block_info.start ∧
          b.block_info.start + 2 ^ 63 ≠ a.block_info.start)
    (he : a.block_info.end_ + 2 ^ 63 ≠ b.block_info.end_ ∧
          b.block_info.end_ + 2 ^ 63 ≠ a.block_info.end_) :
    Int.sign (block_info__cmp mem a b) = - Int.sign (block_info__cmp mem b a) := by
  apply sign_flip
  · unfold block_info__cmp
    simp only []
    by_cases hl : a.block_info.sym = NULL <;> by_cases hr : b.block_info.sym = NULL
    · simp [hl, hr]
    · simp [hl, hr]
    · simp [hl, hr]
    · by_cases hsym : a.block_info.sym = b.block_info.sym
      · have hsym' : b.block_info.sym = a.block_info.sym := hsym.symm
        by_cases hst : a.block_info.start = b.block_info.start
        · have hst' : b.block_info.start = a.block_info.start := hst.symm
          by_cases hen : a.block_info.end_ = b.block_info.end_
          · simp [hl, hr, hsym, hst, hen]
          · have hen' : ¬ b.block_info.end_ = a.block_info.end_ := fun h => hen h.symm
            simp only [hl, hr, hsym', hst', hen, hen', or_self, if_false, if_true]
            rw [s64_sub_neg_iff _ _ hbe hae, s64_sub_pos_iff _ _ hae hbe]
            omega
        · have hst' : ¬ b.block_info.start = a.block_info.start := fun h => hst h.symm
          simp only [hl, hr, hsym', hst, hst', or_self, if_false, if_true]
          rw [s64_sub_neg_iff _ _ hbs has, s64_sub_pos_iff _ _ has hbs]
          omega
      · have hsym' : ¬ b.block_info.sym = a.block_info.sym := fun h => hsym h.symm
        simp only [hl, hr, hsym, hsym', or_self, if_false]
        rw [strcmp_antisymm (mem a.block_info.sym).name]
        omega
  · unfold block_info__cmp
    simp only []
    by_cases hl : a.block_info.sym = NULL <;> by_cases hr : b.block_info.sym = NULL
    · simp [hl, hr]
    · simp [hl, hr]
    · simp [hl, hr]
    · by_cases hsym : a.block_info.sym = b.block_info.sym
      · have hsym' : b.block_info.sym = a.block_info.sym := hsym.symm
        by_cases hst : a.block_info.start = b.block_info.start
        · have hst' : b.block_info.start = a.block_info.start := hst.symm
          by_cases hen : a.block_info.end_ = b.block_info.end_
          · simp [hl, hr, hsym, hst, hen]
          · have hen' : ¬ b.block_info.end_ = a.block_info.end_ := fun h => hen h.symm
            simp only [hl, hr, hsym', hst', hen, hen', or_self, if_false, if_true]
            rw [s64_sub_neg_iff _ _ hae hbe, s64_sub_pos_iff _ _ hbe hae]
            omega
        · have hst' : ¬ b.block_info.start = a.block_info.start := fun h => hst h.symm
          simp only [hl, hr, hsym', hst, hst', or_self, if_false, if_true]
          rw [s64_sub_neg_iff _ _ has hbs, s64_sub_pos_iff _ _ hbs has]
          omega
      · have hsym' : ¬ b.block_info.sym = a.block_info.sym := fun h => hsym h.symm
        simp only [hl, hr, hsym, hsym', or_self, if_false]
        rw [strcmp_antisymm (mem a.block_info.sym).name]
        omega

/-- C1 (witness): records of one symbol with starts `7` and `2`. -/
theorem block_info__cmp_antisymm_witness :
    block_info__cmp same_name_mem (entry_of 1 7 3) (entry_of 1 2 9) = -5 ∧
    Int.sign (block_info__cmp same_name_mem (entry_of 1 7 3) (entry_of 1 2 9)) =
      - Int.sign (block_info__cmp same_name_mem (entry_of 1 2 9) (entry_of 1 7 3)) :=
  ⟨by decide,
   block_info__cmp_antisymm same_name_mem (entry_of 1 7 3) (entry_of 1 2 9)
     (by decide) (by decide) (by decide) (by decide) (by decide) (by decide)⟩

/-- C2 (failing input): `a` and `c` are records of the symbol at pointer `1`
with starts `0` and `5`, `b` is a record of a distinct symbol with the same
name.  `cmp(a, b)` and `cmp(b, c)` are `0`, yet `cmp(a, c)` is `5`: the
comparator is not transitive. -/
theorem block_info__cmp_not_transitive :
    block_info__cmp same_name_mem (entry_of 1 0 0) (entry_of 2 0 0) = 0 ∧
    block_info__cmp same_name_mem (entry_of 2 0 0) (entry_of 1 5 0) = 0 ∧
    block_info__cmp same_name_mem (entry_of 1 0 0) (entry_of 1 5 0) = 5 := by
  decide

/-- C5 (counterexample): with the identical symbol, a left start of
`2 ^ 63 + 1` is larger than a right start of `0`, yet the result is the
positive value `2 ^ 63 - 1`. -/
theorem block_info__cmp_same_sym_wraps :
    (entry_of 1 (2 ^ 63 + 1) 0).block_info.start > (entry_of 1 0 0).block_info.start ∧
    block_info__cmp same_name_mem (entry_of 1 (2 ^ 63 + 1) 0) (entry_of 1 0 0)
      = 2 ^ 63 - 1 ∧
    ¬ block_info__cmp same_name_mem (entry_of 1 (2 ^ 63 + 1) 0) (entry_of 1 0 0) < 0 := by
  decide

/-- C5 (amended): for every pair of block records that share the identical
non-null symbol, with unsigned 64-bit offsets whose starts differ by less than
`2 ^ 63` and whose ends differ by less than `2 ^ 63`: a larger left start gives
a negative result, a smaller left start a positive one, and with equal starts
the result is negative iff the left end is larger and positive iff the left
end is smaller. -/
theorem block_info__cmp_same_sym (mem : Nat → symbol) (left right : hist_entry)
    (hsym : left.block_info.sym = right.block_info.sym)
    (hnull : left.block_info.sym ≠ NULL)
    (hls : left.block_info.start < 2 ^ 64) (hrs : right.block_info.start < 2 ^ 64)
    (hle : left.block_info.end_ < 2 ^ 64) (hre : right.block_info.end_ < 2 ^ 64)
    (hs : left.block_info.start < right.block_info.start + 2 ^ 63 ∧
          right.block_info.start < left.block_info.start + 2 ^ 63)
    (he : left.block_info.end_ < right.block_info.end_ + 2 ^ 63 ∧
          right.block_info.end_ < left.block_info.end_ + 2 ^ 63) :
    (left.block_info.start > right.block_info.start →
      block_info__cmp mem left right < 0) ∧
    (left.block_info.start < right.block_info.start →
      0 < block_info__cmp mem left right) ∧
    (left.block_info.start = right.block_info.start →
      (block_info__cmp mem left right < 0 ↔
        left.block_info.end_ > right.block_info.end_) ∧
      (0 < block_info__cmp mem left right ↔
        left.block_info.end_ < right.block_info.end_)) := by
  have hnull' : right.block_info.sym ≠ NULL := hsym ▸ hnull
  have hcmp : block_info__cmp mem left right =
      if left.block_info.start = right.block_info.start then
        if left.block_info.end_ = right.block_info.end_ then 0
        else s64_of_u64 (u64_sub right.block_info.end_ left.block_info.end_)
      else s64_of_u64 (u64_sub right.block_info.start left.block_info.start) := by
    unfold block_info__cmp
    simp [hnull, hnull', hsym]
  rw [hcmp]
  refine ⟨fun h => ?_, fun h => ?_, fun h => ?_⟩
  · rw [if_neg (by omega), s64_sub_neg_iff _ _ hrs hls]
    omega
  · rw [if_neg (by omega), s64_sub_pos_iff _ _ hrs hls]
    omega
  · rw [if_pos h]
    by_cases hen : left.block_info.end_ = right.block_info.end_
    · rw [if_pos hen]
      omega
    · rw [if_neg hen, s64_sub_neg_iff _ _ hre hle, s64_sub_pos_iff _ _ hre hle]
      omega

/-- C5 (witness): records of one symbol with equal starts and ends `9`, `3`. -/
theorem block_info__cmp_same_sym_witness :
    block_info__cmp same_name_mem (entry_of 1 4 9) (entry_of 1 4 3) = -6 ∧
    (block_info__cmp same_name_mem (entry_of 1 4 9) (entry_of 1 4 3) < 0 ↔
      (entry_of 1 4 9).block_info.end_ > (entry_of 1 4 3).block_info.end_) :=
  ⟨by decide,
   ((block_info__cmp_same_sym same_name_mem (entry_of 1 4 9) (entry_of 1 4 3)
      (by decide) (by decide) (by decide) (by decide) (by decide) (by decide)
      (by decide) (by decide)).2.2 (by decide)).1⟩

/-- C6: when at least one of the two records has no symbol, the result is `0`
if both lack a symbol, `-1` if only the left one does, and `1` if only the
right one does, whatever the starts and ends are. -/
theorem block_info__cmp_no_sym (mem : Nat → symbol) (left right : hist_entry) :
    (left.block_info.sym = NULL ∧ right.block_info.sym = NULL →
      block_info__cmp mem left right = 0) ∧
    (left.block_info.sym = NULL ∧ right.block_info.sym ≠ NULL →
      block_info__cmp mem left right = -1) ∧
    (left.block_info.sym ≠ NULL ∧ right.block_info.sym = NULL →
      block_info__cmp mem left right = 1) := by
  unfold block_info__cmp
  refine ⟨?_, ?_, ?_⟩
  · rintro ⟨hl, hr⟩
    simp [hl, hr]
  · rintro ⟨hl, hr⟩
    simp [hl, hr]
  · rintro ⟨hl, hr⟩
    simp [hl, hr]

/-- C6 (witness): only the left record lacks a symbol, only the right one
does, and both do, with unrelated starts and ends. -/
theorem block_info__cmp_no_sym_witness :
    block_info__cmp same_name_mem (entry_of NULL 8 1) (entry_of 2 3 4) = -1 ∧
    block_info__cmp same_name_mem (entry_of 2 3 4) (entry_of NULL 8 1) = 1 ∧
    block_info__cmp same_name_mem (entry_of NULL 8 1) (entry_of NULL 3 4) = 0 :=
  ⟨(block_info__cmp_no_sym same_name_mem (entry_of NULL 8 1) (entry_of 2 3 4)).2.1
      ⟨rfl, by decide⟩,
   (block_info__cmp_no_sym same_name_mem (entry_of 2 3 4) (entry_of NULL 8 1)).2.2
      ⟨by decide, rfl⟩,
   (block_info__cmp_no_sym same_name_mem (entry_of NULL 8 1) (entry_of NULL 3 4)).1
      ⟨rfl, rfl⟩⟩

/-- C7: when both symbols are present and are not the identical symbol, the
result is the `strcmp` of the two symbol names, whatever the blocks' offsets
and the symbols' address ranges are; hence it is `0` when the two names are
the same. -/
theorem block_info__cmp_distinct_syms (mem : Nat → symbol) (left right : hist_entry)
    (hl : left.block_info.sym ≠ NULL) (hr : right.block_info.sym ≠ NULL)
    (hne : left.block_info.sym ≠ right.block_info.sym) :
    block_info__cmp mem left right =
      strcmp (mem left.block_info.sym).name (mem right.block_info.sym).name ∧
    ((mem left.block_info.sym).name = (mem right.block_info.sym).name →
      block_info__cmp mem left right = 0) := by
  have hcmp : block_info__cmp mem left right =
      strcmp (mem left.block_info.sym).name (mem right.block_info.sym).name := by
    unfold block_info__cmp
    simp [hl, hr, hne]
  refine ⟨hcmp, fun hname => ?_⟩
  rw [hcmp, hname, strcmp_self]

/-- C7 (witness): two distinct symbols named `f` with different address ranges
and blocks with different offsets. -/
theorem block_info__cmp_distinct_syms_witness :
    (same_name_mem 1).start ≠ (same_name_mem 2).start ∧
    block_info__cmp same_name_mem (entry_of 1 8 1) (entry_of 2 3 4) = 0 :=
  ⟨by decide,
   (block_info__cmp_distinct_syms same_name_mem (entry_of 1 8 1) (entry_of 2 3 4)
      (by decide) (by decide) (by decide)).2 (by decide)⟩

/-- C8: two records with identical symbol, identical start and identical end
compare as `0`. -/
theorem block_info__cmp_identical (mem : Nat → symbol) (left right : hist_entry)
    (hsym : left.block_info.sym = right.block_info.sym)
    (hstart : left.block_info.start = right.block_info.start)
    (hend : left.block_info.end_ = right.block_info.end_) :
    block_info__cmp mem left right = 0 := by
  unfold block_info__cmp
  simp only [hsym, hstart, hend]
  split_ifs <;> first | rfl | simp_all

/-- C8 (witness): a record compared with a copy of itself. -/
theorem block_info__cmp_identical_witness :
    block_info__cmp same_name_mem (entry_of 1 4 9) (entry_of 1 4 9) = 0 :=
  block_info__cmp_identical same_name_mem (entry_of 1 4 9) (entry_of 1 4 9) rfl rfl rfl

/-! ## Properties of the aggregation pass -/

theorem u64_add_lt (a b : Nat) : u64_add a b < 2 ^ 64 := by
  unfold u64_add U64_MOD
  omega

theorem add_mod_assoc (c a s : Nat) :
    ((c + a) % 2 ^ 64 + s) % 2 ^ 64 = (c + (a + s)) % 2 ^ 64 := by
  omega

theorem process_sym_unfold (x : externs W) (fuel : Nat) (he : hist_entry) (w : W)
    (acc : Option Nat) (total_cycles : Nat) :
    block_info__process_sym x fuel he w acc total_cycles =
      if he.ms.map = NULL ∨ he.ms.sym = NULL then some (0, w, acc)
      else
        match cycles_hist_of x he.ms.sym with
        | none => some (0, w, acc)
        | some ch =>
          match process_sym_loop x he.ms.sym { map := he.ms.map, sym := he.ms.sym } ch
              total_cycles fuel 0 0 w with
          | none => none
          | some (ret, cycles, w1) =>
            if ret = 0 then some (0, w1, acc.map (fun a => u64_add a cycles))
            else some (ret, w1, acc) := by
  unfold block_info__process_sym cycles_hist_of
  split_ifs with h
  · rfl
  · cases h1 : x.symbol__annotation he.ms.sym with
    | none => rfl
    | some notes =>
      cases h2 : notes.src with
      | none => simp [h2]
      | some src =>
        cases h3 : src.cycles_hist with
        | none => simp [h2, h3]
        | some ch => simp [h2, h3]

theorem sampled_offsets_zero (ch : Nat → cyc_hist) (i : Nat) :
    sampled_offsets ch i 0 = [] := rfl

theorem sampled_offsets_succ (ch : Nat → cyc_hist) (i n : Nat) :
    sampled_offsets ch i (n + 1) =
      if (ch i).num_aggr ≠ 0 then i :: sampled_offsets ch (i + 1) n
      else sampled_offsets ch (i + 1) n := by
  unfold sampled_offsets
  rw [List.range'_succ, List.filter_cons]
  by_cases h : (ch i).num_aggr = 0 <;> simp [h]

theorem loop_body_block (x : externs W) (sym : Nat) (ch : Nat → cyc_hist)
    (total_cycles i : Nat) :
    init_block_info
      { sym := NULL, start := 0, end_ := 0, cycles := 0, cycles_aggr := 0,
        cycles_spark := List.replicate x.NUM_SPARKS 0, total_cycles := 0,
        num := 0, num_aggr := 0, refcnt := 1 }
      sym (ch i) (int_of_uint i) total_cycles = loop_block sym ch total_cycles i := rfl

/-- Running the loop to its end: when every insertion of the records of the
sampled offsets `i, ..., size - 1` succeeds and the size is within the range of
the counter, enough fuel gives the return value `0`, the sum of the averages
added to `cycles`, and the world after the insertions. -/
theorem process_sym_loop_run (x : externs W) (sym : Nat) (al : addr_location)
    (ch : Nat → cyc_hist) (total_cycles : Nat) (hsize : x.symbol__size sym < 2 ^ 32) :
    ∀ (n i c : Nat) (w w' : W), i + n = x.symbol__size sym → c < 2 ^ 64 →
      insert_blocks x al w
        ((sampled_offsets ch i n).map (loop_block sym ch total_cycles)) = some w' →
      ∀ fuel, n < fuel →
        process_sym_loop x sym al ch total_cycles fuel i c w =
          some (0, (c + avg_cycles_sum
            ((sampled_offsets ch i n).map (loop_block sym ch total_cycles))) % 2 ^ 64,
            w') := by
  intro n
  induction n with
  | zero =>
    intro i c w w' hi hc hins fuel hfuel
    obtain ⟨f, rfl⟩ : ∃ f, fuel = f + 1 := ⟨fuel - 1, by omega⟩
    have hlt : ¬ i < x.symbol__size sym := by omega
    simp only [sampled_offsets_zero, List.map_nil, insert_blocks] at hins
    cases hins
    simp only [process_sym_loop, if_neg hlt, sampled_offsets_zero, List.map_nil,
      avg_cycles_sum, List.sum_nil, Nat.add_zero, Nat.mod_eq_of_lt hc]
  | succ n ih =>
    intro i c w w' hi hc hins fuel hfuel
    obtain ⟨f, rfl⟩ : ∃ f, fuel = f + 1 := ⟨fuel - 1, by omega⟩
    have hlt : i < x.symbol__size sym := by omega
    have hnext : (i + 1) % UINT_MOD = i + 1 := by
      unfold UINT_MOD
      omega
    rw [sampled_offsets_succ] at hins ⊢
    unfold process_sym_loop
    rw [if_pos hlt, hnext]
    by_cases hz : (ch i).num_aggr = 0
    · have hz' : ¬ (ch i).num_aggr ≠ 0 := fun h => h hz
      rw [if_neg hz'] at hins ⊢
      rw [if_neg hz']
      exact ih (i + 1) c w w' (by omega) hc hins f (by omega)
    · rw [if_pos hz] at hins ⊢
      rw [if_pos hz]
      simp only [List.map_cons, insert_blocks] at hins
      unfold block_info__new
      cases hza : x.zalloc w with
      | mk ok w1 =>
        rw [hza] at hins
        cases ok with
        | false => simp at hins
        | true =>
          simp only [loop_body_block] at hins ⊢
          cases had : x.hists__add_entry_block w1 al (loop_block sym ch total_cycles i) with
          | mk ok2 w2 =>
            rw [had] at hins
            cases ok2 with
            | false => simp at hins
            | true =>
              simp only at hins ⊢
              rw [ih (i + 1) _ w2 w' (by omega) (u64_add_lt _ _) hins f (by omega)]
              simp only [List.map_cons, avg_cycles_sum, List.sum_cons, u64_add, U64_MOD]
              rw [add_mod_assoc]

/-- The whole pass on an entry with mapping, symbol and histogram, when the
symbol size is within the range of the loop counter and every insertion
succeeds: enough fuel gives the return value `0`. -/
theorem process_sym_run (x : externs W) (he : hist_entry) (w w' : W) (acc : Option Nat)
    (total_cycles : Nat) (ch : Nat → cyc_hist)
    (hmap : he.ms.map ≠ NULL) (hsym : he.ms.sym ≠ NULL)
    (hch : cycles_hist_of x he.ms.sym = some ch)
    (hsize : x.symbol__size he.ms.sym < 2 ^ 32)
    (hins : insert_blocks x { map := he.ms.map, sym := he.ms.sym } w
      ((sampled_offsets ch 0 (x.symbol__size he.ms.sym)).map
        (loop_block he.ms.sym ch total_cycles)) = some w')
    (fuel : Nat) (hfuel : x.symbol__size he.ms.sym < fuel) :
    block_info__process_sym x fuel he w acc total_cycles =
      some (0, w', acc.map (fun a => u64_add a
        (avg_cycles_sum ((sampled_offsets ch 0 (x.symbol__size he.ms.sym)).map
          (loop_block he.ms.sym ch total_cycles)) % 2 ^ 64))) := by
  rw [process_sym_unfold, if_neg (by simp [hmap, hsym]), hch]
  simp only
  rw [process_sym_loop_run x he.ms.sym _ ch total_cycles hsize
    (x.symbol__size he.ms.sym) 0 0 w w' (by omega) (by omega) hins fuel hfuel]
  simp

/-- A return value `0` of the loop: the symbol size is within the range of the
counter, every record of the sampled offsets from `i` on was inserted, and the
sum of their averages was added to `cycles`. -/
theorem process_sym_loop_success (x : externs W) (sym : Nat) (al : addr_location)
    (ch : Nat → cyc_hist) (total_cycles : Nat) :
    ∀ (fuel i c : Nat) (w : W) (c' : Nat) (w' : W),
      i ≤ x.symbol__size sym → i < 2 ^ 32 → c < 2 ^ 64 →
      process_sym_loop x sym al ch total_cycles fuel i c w = some (0, c', w') →
      x.symbol__size sym < 2 ^ 32 ∧
      insert_blocks x al w
        ((sampled_offsets ch i (x.symbol__size sym - i)).map
          (loop_block sym ch total_cycles)) = some w' ∧
      c' = (c + avg_cycles_sum
        ((sampled_offsets ch i (x.symbol__size sym - i)).map
          (loop_block sym ch total_cycles))) % 2 ^ 64 := by
  intro fuel
  induction fuel with
  | zero =>
    intro i c w c' w' _ _ _ h
    simp [process_sym_loop] at h
  | succ f ih =>
    intro i c w c' w' hle hi hc h
    unfold process_sym_loop at h
    by_cases hlt : i < x.symbol__size sym
    · rw [if_pos hlt] at h
      have hnext : ((i + 1) % UINT_MOD = i + 1 ∧ i + 1 < 2 ^ 32) ∨
          ((i + 1) % UINT_MOD = 0 ∧ 2 ^ 32 ≤ x.symbol__size sym) := by
        unfold UINT_MOD
        omega
      have hsplit : x.symbol__size sym - i = (x.symbol__size sym - (i + 1)) + 1 := by
        omega
      rw [hsplit, sampled_offsets_succ]
      by_cases hz : (ch i).num_aggr = 0
      · have hz' : ¬ (ch i).num_aggr ≠ 0 := fun h => h hz
        rw [if_neg hz'] at h
        rw [if_neg hz']
        rcases hnext with ⟨hn, hsmall⟩ | ⟨hn, hbig⟩
        · rw [hn] at h
          exact ih (i + 1) c w c' w' (by omega) hsmall hc h
        · rw [hn] at h
          have := (ih 0 c w c' w' (by omega) (by omega) hc h).1
          omega
      · rw [if_pos hz] at h
        rw [if_pos hz]
        unfold block_info__new at h
        cases hza : x.zalloc w with
        | mk ok w1 =>
          rw [hza] at h
          cases ok with
          | false => simp at h
          | true =>
            simp only [loop_body_block] at h
            cases had : x.hists__add_entry_block w1 al
                (loop_block sym ch total_cycles i) with
            | mk ok2 w2 =>
              rw [had] at h
              cases ok2 with
              | false => simp at h
              | true =>
                simp only at h
                simp only [List.map_cons, insert_blocks, hza, had]
                rcases hnext with ⟨hn, hsmall⟩ | ⟨hn, hbig⟩
                · rw [hn] at h
                  obtain ⟨h1, h2, h3⟩ :=
                    ih (i + 1) _ w2 c' w' (by omega) hsmall (u64_add_lt _ _) h
                  refine ⟨h1, h2, ?_⟩
                  rw [h3]
                  simp only [avg_cycles_sum, List.map_cons, List.sum_cons, u64_add, U64_MOD]
                  rw [add_mod_assoc]
                · rw [hn] at h
                  have := (ih 0 _ w2 c' w' (by omega) (by omega) (u64_add_lt _ _) h).1
                  omega
    · rw [if_neg hlt] at h
      have hzero : x.symbol__size sym - i = 0 := by omega
      simp only [Option.some.injEq, Prod.mk.injEq, true_and] at h
      obtain ⟨rfl, rfl⟩ := h
      rw [hzero, sampled_offsets_zero]
      refine ⟨by omega, rfl, ?_⟩
      simp only [List.map_nil, avg_cycles_sum, List.sum_nil, Nat.add_zero]
      exact (Nat.mod_eq_of_lt hc).symm

theorem offset_roundtrip (i : Nat) (h : i < 2 ^ 31) : u64_of_int (int_of_uint i) = i := by
  unfold u64_of_int int_of_uint UINT_MOD U64_MOD
  have h1 : i % 2 ^ 32 = i := Nat.mod_eq_of_lt (by omega)
  rw [h1, if_pos h]
  omega

theorem mem_sampled_offsets (ch : Nat → cyc_hist) (i n j : Nat) :
    j ∈ sampled_offsets ch i n ↔ (i ≤ j ∧ j < i + n) ∧ (ch j).num_aggr ≠ 0 := by
  unfold sampled_offsets
  simp [List.mem_filter]

theorem sampled_offsets_increasing (ch : Nat → cyc_hist) (i n : Nat) :
    (sampled_offsets ch i n).Pairwise (fun a b => a < b) := by
  unfold sampled_offsets
  exact (List.pairwise_lt_range' i n).filter _

theorem sampled_offsets_eq_nil (ch : Nat → cyc_hist) (n : Nat)
    (hzero : ∀ j, j < n → (ch j).num_aggr = 0) : sampled_offsets ch 0 n = [] := by
  unfold sampled_offsets
  rw [List.filter_eq_nil_iff]
  intro a ha
  have hlt : a < n := by
    have := List.mem_range'_1.mp ha
    omega
  simp [hzero a hlt]

theorem sampled_offsets_last (ch : Nat → cyc_hist) (n : Nat)
    (hzero : ∀ j, j < n → (ch j).num_aggr = 0) (hn : (ch n).num_aggr ≠ 0) :
    sampled_offsets ch 0 (n + 1) = [n] := by
  have hnil := sampled_offsets_eq_nil ch n hzero
  unfold sampled_offsets at hnil ⊢
  rw [List.range'_concat, List.filter_append, hnil]
  simp [hn]

theorem loop_blocks_eq_spec_blocks (sym : Nat) (ch : Nat → cyc_hist) (total_cycles n : Nat)
    (hn : n ≤ 2 ^ 31) :
    (sampled_offsets ch 0 n).map (loop_block sym ch total_cycles) =
      (sampled_offsets ch 0 n).map (spec_block sym ch total_cycles) := by
  apply List.map_congr_left
  intro j hj
  have hlt : j < 2 ^ 31 := by
    have := (mem_sampled_offsets ch 0 n j).mp hj
    omega
  unfold loop_block
  rw [offset_roundtrip j hlt]
  rfl

/-- The loop never ends when the symbol size is `2 ^ 32` or more and no bucket
has a sample: the counter wraps before it reaches the size. -/
theorem process_sym_loop_diverges (x : externs W) (sym : Nat) (al : addr_location)
    (ch : Nat → cyc_hist) (total_cycles : Nat)
    (hsize : 2 ^ 32 ≤ x.symbol__size sym) (hzero : ∀ j, (ch j).num_aggr = 0) :
    ∀ (fuel i c : Nat) (w : W), i < 2 ^ 32 →
      process_sym_loop x sym al ch total_cycles fuel i c w = none := by
  intro fuel
  induction fuel with
  | zero =>
    intro i c w _
    rfl
  | succ f ih =>
    intro i c w hi
    unfold process_sym_loop
    have hz' : ¬ (ch i).num_aggr ≠ 0 := fun h => h (hzero i)
    rw [if_pos (by omega), if_neg hz']
    apply ih
    unfold UINT_MOD
    omega

/-- C3 (counterexample): a symbol of size `2 ^ 31 + 1` whose only sampled
offset is `i = 2 ^ 31`.  The pass succeeds and inserts one record, but the
record's `end` is `2 ^ 64 - 2 ^ 31`, not `i`. -/
theorem process_sym_end_not_offset :
    block_info__process_sym (list_store (2 ^ 31 + 1) far_hist) (2 ^ 31 + 2)
        (ranked_entry 1 1) [] (some 0) 1000 = some (0, [far_block], some 7) ∧
    far_block.end_ = 2 ^ 64 - 2 ^ 31 ∧ far_block.end_ ≠ 2 ^ 31 := by
  have hoff : sampled_offsets far_hist 0 (2 ^ 31 + 1) = [2 ^ 31] := by
    apply sampled_offsets_last
    · intro j hj
      have hne : ¬ j = 2 ^ 31 := by omega
      unfold far_hist
      rw [if_neg hne]
      rfl
    · simp [far_hist, bucket_of]
  have hblock : loop_block 1 far_hist 1000 (2 ^ 31) = far_block := by decide
  have hrun := process_sym_run (list_store (2 ^ 31 + 1) far_hist) (ranked_entry 1 1) []
    [far_block] (some 0) 1000 far_hist (by decide) (by decide) rfl
    (by simp [list_store, ranked_entry])
    (by
      have hsz : (list_store (2 ^ 31 + 1) far_hist).symbol__size (ranked_entry 1 1).ms.sym
          = 2 ^ 31 + 1 := rfl
      have hsym : (ranked_entry 1 1).ms.sym = 1 := rfl
      rw [hsz, hoff, hsym, List.map_singleton, hblock]
      rfl)
    (2 ^ 31 + 2) (by simp [list_store, ranked_entry])
  have hsz : (list_store (2 ^ 31 + 1) far_hist).symbol__size (ranked_entry 1 1).ms.sym
      = 2 ^ 31 + 1 := rfl
  have hsym : (ranked_entry 1 1).ms.sym = 1 := rfl
  rw [hsz, hoff, hsym, List.map_singleton, hblock] at hrun
  refine ⟨hrun.trans ?_, by decide, by decide⟩
  decide

/-- C3 (amended): for every ranked entry with a resolved symbol, mapping and
cycle histogram whose symbol size is at most `2 ^ 31`, and when no allocation
fails, `block_info__process_sym` returns `0` and has inserted into the store
exactly one record per offset below the symbol size whose aggregated sample
count is nonzero, in increasing offset order; the record of offset `i` is
`spec_block`: the entry's symbol, the bucket's start, `end = i`, the counters
and sparkline of bucket `i`, and the session total. -/
theorem process_sym_inserts (x : externs W) (he : hist_entry) (w w' : W)
    (acc : Option Nat) (total_cycles : Nat) (ch : Nat → cyc_hist)
    (hmap : he.ms.map ≠ NULL) (hsym : he.ms.sym ≠ NULL)
    (hch : cycles_hist_of x he.ms.sym = some ch)
    (hsize : x.symbol__size he.ms.sym ≤ 2 ^ 31)
    (hins : insert_blocks x { map := he.ms.map, sym := he.ms.sym } w
      ((sampled_offsets ch 0 (x.symbol__size he.ms.sym)).map
        (spec_block he.ms.sym ch total_cycles)) = some w')
    (fuel : Nat) (hfuel : x.symbol__size he.ms.sym < fuel) :
    block_info__process_sym x fuel he w acc total_cycles =
      some (0, w', acc.map (fun a => u64_add a
        (avg_cycles_sum ((sampled_offsets ch 0 (x.symbol__size he.ms.sym)).map
          (spec_block he.ms.sym ch total_cycles)) % 2 ^ 64))) ∧
    (∀ j, j ∈ sampled_offsets ch 0 (x.symbol__size he.ms.sym) ↔
      j < x.symbol__size he.ms.sym ∧ (ch j).num_aggr ≠ 0) ∧
    (sampled_offsets ch 0 (x.symbol__size he.ms.sym)).Pairwise (fun a b => a < b) := by
  refine ⟨?_, fun j => ?_, sampled_offsets_increasing ch 0 _⟩
  · rw [← loop_blocks_eq_spec_blocks he.ms.sym ch total_cycles _ hsize] at hins ⊢
    exact process_sym_run x he w w' acc total_cycles ch hmap hsym hch (by omega) hins
      fuel hfuel
  · rw [mem_sampled_offsets]
    constructor
    · rintro ⟨⟨_, h2⟩, h3⟩
      exact ⟨by omega, h3⟩
    · rintro ⟨h2, h3⟩
      exact ⟨⟨by omega, by omega⟩, h3⟩

/-- C3 (witness): the end-to-end scenario.  A symbol of size `10` with samples
at offsets `5` and `9` and the session total `1000` gives the two records
(start `0`, end `5`, cycles `100`) and (start `5`, end `9`, cycles `150`). -/
theorem process_sym_inserts_witness :
    block_info__process_sym (list_store 10 scenario_hist) 11 (ranked_entry 1 1) []
        (some 0) 1000 = some (0, scenario_blocks, some 100) ∧
    sampled_offsets scenario_hist 0 10 = [5, 9] :=
  ⟨(process_sym_inserts (list_store 10 scenario_hist) (ranked_entry 1 1) []
      scenario_blocks (some 0) 1000 scenario_hist (by decide) (by decide) rfl
      (by decide) (by decide) 11 (by decide)).1.trans (by decide),
   by decide⟩

/-- A call that returns `0`, with any accumulator pointer: the accumulator, if
there is one, has grown by the sum of the averages of the emitted blocks,
modulo `2 ^ 64`, and the world is the one after their insertion. -/
theorem process_sym_success (x : externs W) (fuel : Nat) (he : hist_entry)
    (w w' : W) (acc acc' : Option Nat) (total_cycles : Nat)
    (hacc : ∀ a, acc = some a → a < 2 ^ 64)
    (h : block_info__process_sym x fuel he w acc total_cycles = some (0, w', acc')) :
    acc' = acc.map
      (fun a => (a + avg_cycles_sum (emitted_blocks x he total_cycles)) % 2 ^ 64) ∧
    insert_blocks x { map := he.ms.map, sym := he.ms.sym } w
      (emitted_blocks x he total_cycles) = some w' := by
  have hkeep : acc.map (fun a => (a + 0) % 2 ^ 64) = acc := by
    cases acc with
    | none => rfl
    | some a =>
      have ha : a % 2 ^ 64 = a := Nat.mod_eq_of_lt (hacc a rfl)
      simp only [Option.map_some', Nat.add_zero, ha]
  rw [process_sym_unfold] at h
  unfold emitted_blocks
  by_cases hnull : he.ms.map = NULL ∨ he.ms.sym = NULL
  · rw [if_pos hnull] at h ⊢
    simp only [Option.some.injEq, Prod.mk.injEq, true_and] at h
    obtain ⟨rfl, rfl⟩ := h
    exact ⟨hkeep.symm, rfl⟩
  · rw [if_neg hnull] at h ⊢
    cases hch : cycles_hist_of x he.ms.sym with
    | none =>
      rw [hch] at h
      simp only [Option.some.injEq, Prod.mk.injEq, true_and] at h
      obtain ⟨rfl, rfl⟩ := h
      exact ⟨hkeep.symm, rfl⟩
    | some ch =>
      rw [hch] at h
      simp only at h ⊢
      cases hloop : process_sym_loop x he.ms.sym { map := he.ms.map, sym := he.ms.sym } ch
          total_cycles fuel 0 0 w with
      | none =>
        rw [hloop] at h
        simp at h
      | some r =>
        obtain ⟨ret, cycles, w1⟩ := r
        rw [hloop] at h
        simp only at h
        by_cases hret : ret = 0
        · subst hret
          rw [if_pos rfl] at h
          simp only [Option.some.injEq, Prod.mk.injEq, true_and] at h
          obtain ⟨rfl, rfl⟩ := h
          obtain ⟨_, h2, h3⟩ := process_sym_loop_success x he.ms.sym _ ch total_cycles
            fuel 0 0 w cycles w1 (by omega) (by omega) (by omega) hloop
          rw [Nat.sub_zero] at h2 h3
          refine ⟨?_, h2⟩
          rw [h3]
          cases acc with
          | none => rfl
          | some a =>
            simp only [Option.map_some', u64_add, U64_MOD, Nat.zero_add, Option.some.injEq]
            omega
        · rw [if_neg hret] at h
          simp only [Option.some.injEq, Prod.mk.injEq] at h
          exact absurd h.1 hret

/-- C4: for every call of `block_info__process_sym` that returns `0` with a
non-null accumulator holding a 64-bit value, the accumulator after the call is
its value before the call plus the sum over the emitted blocks of
`cycles_aggr / num_aggr` (truncating), in arithmetic modulo `2 ^ 64`; the
emitted blocks are the records the call inserted into the store. -/
theorem process_sym_accumulates (x : externs W) (fuel : Nat) (he : hist_entry)
    (w w' : W) (acc : Nat) (acc' : Option Nat) (total_cycles : Nat)
    (hacc : acc < 2 ^ 64)
    (h : block_info__process_sym x fuel he w (some acc) total_cycles
      = some (0, w', acc')) :
    acc' = some ((acc + avg_cycles_sum (emitted_blocks x he total_cycles)) % 2 ^ 64) ∧
    insert_blocks x { map := he.ms.map, sym := he.ms.sym } w
      (emitted_blocks x he total_cycles) = some w' := by
  have hsome : ∀ a, some acc = some a → a < 2 ^ 64 := by
    intro a ha
    cases ha
    exact hacc
  obtain ⟨h1, h2⟩ := process_sym_success x fuel he w w' (some acc) acc' total_cycles hsome h
  exact ⟨by rw [h1]; rfl, h2⟩

/-- C4 (witness): buckets (cycles_aggr `100`, count `2`) and (cycles_aggr
`150`, count `3`) add `50 + 50 = 100` to an accumulator that held `7`. -/
theorem process_sym_accumulates_witness :
    avg_cycles_sum (emitted_blocks (list_store 10 scenario_hist) (ranked_entry 1 1) 1000)
      = 100 ∧
    some 107 = some ((7 + avg_cycles_sum
      (emitted_blocks (list_store 10 scenario_hist) (ranked_entry 1 1) 1000)) % 2 ^ 64) :=
  ⟨by decide,
   (process_sym_accumulates (list_store 10 scenario_hist) 11 (ranked_entry 1 1) []
      scenario_blocks 7 (some 107) 1000 (by decide) (by decide)).1⟩

/-- C9 (counterexample): a symbol of size `2 ^ 32` whose histogram has no
sample at any offset.  The call never returns: whatever the fuel, the model
yields no result, because the 32-bit loop counter wraps to `0` before it
reaches the size. -/
theorem process_sym_no_samples_diverges :
    (list_store (2 ^ 32) empty_hist).symbol__size 1 = 2 ^ 32 ∧
    (∀ i, (empty_hist i).num_aggr = 0) ∧
    ∀ fuel, block_info__process_sym (list_store (2 ^ 32) empty_hist) fuel
      (ranked_entry 1 1) [] (some 0) 1000 = none := by
  refine ⟨rfl, fun _ => rfl, fun fuel => ?_⟩
  rw [process_sym_unfold, if_neg (by decide)]
  have hch : cycles_hist_of (list_store (2 ^ 32) empty_hist) (ranked_entry 1 1).ms.sym
      = some empty_hist := rfl
  rw [hch]
  simp only
  rw [process_sym_loop_diverges (list_store (2 ^ 32) empty_hist) _ _ empty_hist 1000
    (le_of_eq rfl) (fun _ => rfl) fuel 0 0 [] (by omega)]

/-- C9 (amended): for every entry with mapping, symbol and cycle histogram
whose symbol size is below `2 ^ 32` and whose aggregated sample count is zero
at every offset below the symbol size, `block_info__process_sym` returns `0`,
leaves the store as it was and leaves the accumulator (a 64-bit value) equal
to its value before the call. -/
theorem process_sym_no_samples (x : externs W) (he : hist_entry) (w : W)
    (acc : Option Nat) (total_cycles : Nat) (ch : Nat → cyc_hist)
    (hmap : he.ms.map ≠ NULL) (hsym : he.ms.sym ≠ NULL)
    (hch : cycles_hist_of x he.ms.sym = some ch)
    (hsize : x.symbol__size he.ms.sym < 2 ^ 32)
    (hzero : ∀ i, i < x.symbol__size he.ms.sym → (ch i).num_aggr = 0)
    (hacc : ∀ a, acc = some a → a < 2 ^ 64)
    (fuel : Nat) (hfuel : x.symbol__size he.ms.sym < fuel) :
    block_info__process_sym x fuel he w acc total_cycles = some (0, w, acc) := by
  have hnil := sampled_offsets_eq_nil ch (x.symbol__size he.ms.sym) hzero
  have hrun := process_sym_run x he w w acc total_cycles ch hmap hsym hch hsize
    (by rw [hnil]; rfl) fuel hfuel
  rw [hrun, hnil]
  cases acc with
  | none => rfl
  | some a =>
    have ha : a % 2 ^ 64 = a := Nat.mod_eq_of_lt (hacc a rfl)
    simp only [List.map_nil, avg_cycles_sum, List.sum_nil, Option.map_some', u64_add,
      U64_MOD, Nat.zero_mod, Nat.add_zero, ha]

/-- C9 (witness): a symbol of size `10` without samples; the store keeps its
one earlier record and the accumulator keeps `42`. -/
theorem process_sym_no_samples_witness :
    block_info__process_sym (list_store 10 empty_hist) 11 (ranked_entry 1 1)
      [far_block] (some 42) 1000 = some (0, [far_block], some 42) :=
  process_sym_no_samples (list_store 10 empty_hist) (ranked_entry 1 1) [far_block]
    (some 42) 1000 empty_hist (by decide) (by decide) rfl (by decide)
    (fun _ _ => rfl) (fun a ha => by cases ha; decide) 11 (by decide)

/-- C10: for every entry that lacks a mapping or a resolved symbol, or whose
symbol has no annotation, no annotated source or no cycle histogram,
`block_info__process_sym` returns `0` whatever the fuel, and leaves the store
and the accumulator as they were. -/
theorem process_sym_skips (x : externs W) (fuel : Nat) (he : hist_entry) (w : W)
    (acc : Option Nat) (total_cycles : Nat)
    (h : he.ms.map = NULL ∨ he.ms.sym = NULL ∨ cycles_hist_of x he.ms.sym = none) :
    block_info__process_sym x fuel he w acc total_cycles = some (0, w, acc) := by
  rw [process_sym_unfold]
  by_cases hnull : he.ms.map = NULL ∨ he.ms.sym = NULL
  · rw [if_pos hnull]
  · rw [if_neg hnull]
    have hch : cycles_hist_of x he.ms.sym = none := by
      rcases h with h | h | h
      · exact absurd (Or.inl h) hnull
      · exact absurd (Or.inr h) hnull
      · exact h
    rw [hch]

/-- C10 (witness): an entry without a resolved symbol, and an entry whose
symbol has no annotation; neither changes the store or the accumulator. -/
theorem process_sym_skips_witness :
    block_info__process_sym (list_store 10 scenario_hist) 0 (ranked_entry 1 NULL)
      [far_block] (some 42) 1000 = some (0, [far_block], some 42) ∧
    block_info__process_sym bare_store 0 (ranked_entry 1 1)
      [far_block] (some 42) 1000 = some (0, [far_block], some 42) :=
  ⟨process_sym_skips (list_store 10 scenario_hist) 0 (ranked_entry 1 NULL) [far_block]
      (some 42) 1000 (Or.inr (Or.inl rfl)),
   by decide⟩

/-! ## Return value and failure of the aggregation pass -/

/-- Running the loop on a symbol within the range of the counter: enough fuel
gives a result, which is `0` with the world after all insertions when every
insertion succeeds, and `-1` with the world at the first failure otherwise. -/
theorem process_sym_loop_total (x : externs W) (sym : Nat) (al : addr_location)
    (ch : Nat → cyc_hist) (total_cycles : Nat) (hsize : x.symbol__size sym < 2 ^ 32) :
    ∀ (n i c : Nat) (w : W), i + n = x.symbol__size sym →
      ∀ fuel, n < fuel →
        ∃ c', process_sym_loop x sym al ch total_cycles fuel i c w =
          some (if (insert_blocks x al w ((sampled_offsets ch i n).map
                  (loop_block sym ch total_cycles))).isSome then 0 else -1,
                c',
                insert_until_failure x al w ((sampled_offsets ch i n).map
                  (loop_block sym ch total_cycles))) := by
  intro n
  induction n with
  | zero =>
    intro i c w hi fuel hfuel
    obtain ⟨f, rfl⟩ : ∃ f, fuel = f + 1 := ⟨fuel - 1, by omega⟩
    have hlt : ¬ i < x.symbol__size sym := by omega
    refine ⟨c, ?_⟩
    simp [process_sym_loop, hlt, sampled_offsets_zero, insert_blocks, insert_until_failure]
  | succ n ih =>
    intro i c w hi fuel hfuel
    obtain ⟨f, rfl⟩ : ∃ f, fuel = f + 1 := ⟨fuel - 1, by omega⟩
    have hlt : i < x.symbol__size sym := by omega
    have hnext : (i + 1) % UINT_MOD = i + 1 := by
      unfold UINT_MOD
      omega
    rw [sampled_offsets_succ]
    unfold process_sym_loop
    rw [if_pos hlt, hnext]
    by_cases hz : (ch i).num_aggr = 0
    · have hz' : ¬ (ch i).num_aggr ≠ 0 := fun h => h hz
      rw [if_neg hz', if_neg hz']
      exact ih (i + 1) c w (by omega) f (by omega)
    · rw [if_pos hz, if_pos hz]
      simp only [List.map_cons, insert_blocks, insert_until_failure]
      unfold block_info__new
      obtain ⟨ok, w1, hza⟩ : ∃ ok w1, x.zalloc w = (ok, w1) := ⟨_, _, rfl⟩
      simp only [hza]
      cases ok with
      | false => exact ⟨c, by simp⟩
      | true =>
        simp only [loop_body_block]
        obtain ⟨ok2, w2, had⟩ : ∃ ok2 w2,
            x.hists__add_entry_block w1 al (loop_block sym ch total_cycles i) = (ok2, w2) :=
          ⟨_, _, rfl⟩
        simp only [had]
        cases ok2 with
        | false => exact ⟨_, rfl⟩
        | true => exact ih (i + 1) _ w2 (by omega) f (by omega)

/-- The whole pass on an entry with mapping, symbol and histogram whose symbol
size is within the range of the counter: enough fuel gives a result; the
return value is `0` when every insertion succeeds and `-1` otherwise, the world
is the one at the end of the insertions or at the first failure, and the
accumulator moves only with the return value `0`. -/
theorem process_sym_total (x : externs W) (he : hist_entry) (w : W) (acc : Option Nat)
    (total_cycles : Nat) (ch : Nat → cyc_hist)
    (hnull : ¬ (he.ms.map = NULL ∨ he.ms.sym = NULL))
    (hch : cycles_hist_of x he.ms.sym = some ch)
    (hsize : x.symbol__size he.ms.sym < 2 ^ 32)
    (fuel : Nat) (hfuel : x.symbol__size he.ms.sym < fuel) :
    ∃ acc', block_info__process_sym x fuel he w acc total_cycles =
      some (if (insert_blocks x { map := he.ms.map, sym := he.ms.sym } w
                (emitted_blocks x he total_cycles)).isSome then 0 else -1,
            insert_until_failure x { map := he.ms.map, sym := he.ms.sym } w
              (emitted_blocks x he total_cycles),
            acc') ∧
      ((insert_blocks x { map := he.ms.map, sym := he.ms.sym } w
          (emitted_blocks x he total_cycles)).isSome = false → acc' = acc) := by
  obtain ⟨c', hloop⟩ := process_sym_loop_total x he.ms.sym
    { map := he.ms.map, sym := he.ms.sym } ch total_cycles hsize
    (x.symbol__size he.ms.sym) 0 0 w (by omega) fuel hfuel
  have hem : emitted_blocks x he total_cycles =
      (sampled_offsets ch 0 (x.symbol__size he.ms.sym)).map
        (loop_block he.ms.sym ch total_cycles) := by
    unfold emitted_blocks
    rw [if_neg hnull, hch]
  rw [process_sym_unfold, if_neg hnull, hch, hem]
  simp only [hloop]
  cases hins : (insert_blocks x { map := he.ms.map, sym := he.ms.sym } w
      ((sampled_offsets ch 0 (x.symbol__size he.ms.sym)).map
        (loop_block he.ms.sym ch total_cycles))).isSome with
  | true => exact ⟨acc.map (fun a => u64_add a c'), by simp, by simp⟩
  | false => exact ⟨acc, by simp, by simp⟩

/-- A pass that is skipped or runs over a symbol smaller than `2 ^ 32`
returns, given enough fuel. -/
theorem process_sym_returns (x : externs W) (he : hist_entry) (w : W)
    (acc : Option Nat) (total_cycles : Nat)
    (hsize : he.ms.map = NULL ∨ he.ms.sym = NULL ∨ cycles_hist_of x he.ms.sym = none ∨
      x.symbol__size he.ms.sym < 2 ^ 32)
    (fuel : Nat) (hfuel : x.symbol__size he.ms.sym < fuel) :
    ∃ r, block_info__process_sym x fuel he w acc total_cycles = some r := by
  by_cases hnull : he.ms.map = NULL ∨ he.ms.sym = NULL
  · exact ⟨_, by rw [process_sym_unfold, if_pos hnull]⟩
  · cases hch : cycles_hist_of x he.ms.sym with
    | none => exact ⟨_, by rw [process_sym_unfold, if_neg hnull, hch]⟩
    | some ch =>
      have hlt : x.symbol__size he.ms.sym < 2 ^ 32 := by
        rcases hsize with h | h | h | h
        · exact absurd (Or.inl h) hnull
        · exact absurd (Or.inr h) hnull
        · rw [hch] at h
          cases h
        · exact h
      obtain ⟨acc', hrun, _⟩ := process_sym_total x he w acc total_cycles ch hnull hch hlt
        fuel hfuel
      exact ⟨_, hrun⟩

/-- C11 (counterexample): a symbol of size `2 ^ 32 + 1` without samples in a
world where no allocation and no insertion fails.  No insertion is attempted,
yet the call does not return `0`: it returns nothing, whatever the fuel. -/
theorem process_sym_no_return_value :
    insert_blocks (list_store (2 ^ 32 + 1) empty_hist) { map := 1, sym := 1 } []
      (emitted_blocks (list_store (2 ^ 32 + 1) empty_hist) (ranked_entry 1 1) 1000)
      = some [] ∧
    ∀ fuel, block_info__process_sym (list_store (2 ^ 32 + 1) empty_hist) fuel
      (ranked_entry 1 1) [] none 1000 = none := by
  constructor
  · have hnil : sampled_offsets empty_hist 0 (2 ^ 32 + 1) = [] :=
      sampled_offsets_eq_nil empty_hist _ (fun _ _ => rfl)
    have hem : emitted_blocks (list_store (2 ^ 32 + 1) empty_hist) (ranked_entry 1 1) 1000
        = (sampled_offsets empty_hist 0 (2 ^ 32 + 1)).map
            (loop_block 1 empty_hist 1000) := rfl
    rw [hem, hnil]
    rfl
  · intro fuel
    rw [process_sym_unfold, if_neg (by decide)]
    have hch : cycles_hist_of (list_store (2 ^ 32 + 1) empty_hist) (ranked_entry 1 1).ms.sym
        = some empty_hist := rfl
    rw [hch]
    simp only
    rw [process_sym_loop_diverges (list_store (2 ^ 32 + 1) empty_hist) _ _ empty_hist 1000
      (by simp [list_store]) (fun _ => rfl) fuel 0 0 [] (by omega)]

/-- C11 (amended): for every entry that is skipped (no mapping, no symbol or
no histogram) or whose symbol size is below `2 ^ 32`, enough fuel makes
`block_info__process_sym` return; the return value is `-1` if and only if
allocating or inserting the record of some sampled offset fails, and `0` in
every other case. -/
theorem process_sym_return_value (x : externs W) (he : hist_entry) (w : W)
    (acc : Option Nat) (total_cycles : Nat)
    (hsize : he.ms.map = NULL ∨ he.ms.sym = NULL ∨ cycles_hist_of x he.ms.sym = none ∨
      x.symbol__size he.ms.sym < 2 ^ 32)
    (fuel : Nat) (hfuel : x.symbol__size he.ms.sym < fuel) :
    ∃ ret w' acc', block_info__process_sym x fuel he w acc total_cycles
        = some (ret, w', acc') ∧
      (ret = -1 ↔ insert_blocks x { map := he.ms.map, sym := he.ms.sym } w
        (emitted_blocks x he total_cycles) = none) ∧
      (ret ≠ -1 → ret = 0) := by
  by_cases hskip : he.ms.map = NULL ∨ he.ms.sym = NULL ∨ cycles_hist_of x he.ms.sym = none
  · have hres : block_info__process_sym x fuel he w acc total_cycles = some (0, w, acc) := by
      rw [process_sym_unfold]
      by_cases hnull : he.ms.map = NULL ∨ he.ms.sym = NULL
      · rw [if_pos hnull]
      · rw [if_neg hnull]
        have hch : cycles_hist_of x he.ms.sym = none := by
          rcases hskip with h | h | h
          · exact absurd (Or.inl h) hnull
          · exact absurd (Or.inr h) hnull
          · exact h
        rw [hch]
    refine ⟨0, w, acc, hres, ?_, fun _ => rfl⟩
    have hem : emitted_blocks x he total_cycles = [] := by
      unfold emitted_blocks
      by_cases hnull : he.ms.map = NULL ∨ he.ms.sym = NULL
      · rw [if_pos hnull]
      · rw [if_neg hnull]
        have hch : cycles_hist_of x he.ms.sym = none := by
          rcases hskip with h | h | h
          · exact absurd (Or.inl h) hnull
          · exact absurd (Or.inr h) hnull
          · exact h
        rw [hch]
    rw [hem]
    simp [insert_blocks]
  · have hnull : ¬ (he.ms.map = NULL ∨ he.ms.sym = NULL) := by
      intro h
      rcases h with h | h
      · exact hskip (Or.inl h)
      · exact hskip (Or.inr (Or.inl h))
    have hlt : x.symbol__size he.ms.sym < 2 ^ 32 := by
      rcases hsize with h | h | h | h
      · exact absurd (Or.inl h) hskip
      · exact absurd (Or.inr (Or.inl h)) hskip
      · exact absurd (Or.inr (Or.inr h)) hskip
      · exact h
    obtain ⟨ch, hch⟩ : ∃ ch, cycles_hist_of x he.ms.sym = some ch := by
      cases h : cycles_hist_of x he.ms.sym with
      | none => exact absurd (Or.inr (Or.inr h)) hskip
      | some ch => exact ⟨ch, rfl⟩
    obtain ⟨acc', hrun, _⟩ := process_sym_total x he w acc total_cycles ch hnull hch hlt
      fuel hfuel
    refine ⟨_, _, acc', hrun, ?_, ?_⟩
    · cases hins : insert_blocks x { map := he.ms.map, sym := he.ms.sym } w
          (emitted_blocks x he total_cycles) with
      | none => simp
      | some w1 => simp
    · cases hins : insert_blocks x { map := he.ms.map, sym := he.ms.sym } w
          (emitted_blocks x he total_cycles) with
      | none => simp
      | some w1 => simp

/-- C11 (witness): in the scenario the second allocation fails and the call
returns `-1`; with no failure it returns `0`. -/
theorem process_sym_return_value_witness :
    block_info__process_sym (oracle_store 10 scenario_hist) 11 (ranked_entry 1 1)
      { allocs := [true, false], store := [] } (some 42) 1000
      = some (-1, { allocs := [], store := scenario_blocks.take 1 }, some 42) ∧
    ∃ ret w' acc', block_info__process_sym (list_store 10 scenario_hist) 11
        (ranked_entry 1 1) [] (some 42) 1000 = some (ret, w', acc') ∧
      (ret = -1 ↔ insert_blocks (list_store 10 scenario_hist)
        { map := (ranked_entry 1 1).ms.map, sym := (ranked_entry 1 1).ms.sym } []
        (emitted_blocks (list_store 10 scenario_hist) (ranked_entry 1 1) 1000) = none) ∧
      (ret ≠ -1 → ret = 0) :=
  ⟨by decide,
   process_sym_return_value (list_store 10 scenario_hist) (ranked_entry 1 1) []
     (some 42) 1000 (Or.inr (Or.inr (Or.inr (by decide)))) 11 (by decide)⟩

/-- A failing run of insertions splits at the first failure: the records
before it are inserted, and the world at the end is the one the failing step
leaves behind. -/
theorem insert_blocks_failure_split (x : externs W) (al : addr_location) :
    ∀ (bs : List block_info) (w : W), insert_blocks x al w bs = none →
      ∃ pre bi rest w_mid, bs = pre ++ bi :: rest ∧
        insert_blocks x al w pre = some w_mid ∧
        insert_blocks x al w_mid [bi] = none ∧
        insert_until_failure x al w bs = insert_until_failure x al w_mid [bi] := by
  intro bs
  induction bs with
  | nil =>
    intro w h
    simp [insert_blocks] at h
  | cons b bs ih =>
    intro w h
    obtain ⟨ok, w1, hza⟩ : ∃ ok w1, x.zalloc w = (ok, w1) := ⟨_, _, rfl⟩
    cases ok with
    | false =>
      refine ⟨[], b, bs, w, rfl, rfl, ?_, ?_⟩
      · simp [insert_blocks, hza]
      · simp [insert_until_failure, hza]
    | true =>
      obtain ⟨ok2, w2, had⟩ : ∃ ok2 w2, x.hists__add_entry_block w1 al b = (ok2, w2) :=
        ⟨_, _, rfl⟩
      cases ok2 with
      | false =>
        refine ⟨[], b, bs, w, rfl, rfl, ?_, ?_⟩
        · simp [insert_blocks, hza, had]
        · simp [insert_until_failure, hza, had]
      | true =>
        have h' : insert_blocks x al w2 bs = none := by
          simpa [insert_blocks, hza, had] using h
        obtain ⟨pre, bi, rest, w_mid, hsplit, hpre, hfail, hworld⟩ := ih w2 h'
        refine ⟨b :: pre, bi, rest, w_mid, by simp [hsplit], ?_, hfail, ?_⟩
        · simp [insert_blocks, hza, had, hpre]
        · simp only [insert_until_failure, hza, had]
          exact hworld

/-- C12 (counterexample): the scenario with a failing second allocation.  The
failing call returns `-1` and the record of offset `5`, inserted before the
failure, remains in the store.  `process_block_report` on two such entries
goes on with the second entry after the failure of the first and returns a
stamped report with the cycle sum `100`, and `block_info__create_report`
returns the array of reports, not `NULL`. -/
theorem process_sym_failure_not_undone :
    block_info__process_sym (oracle_store 10 scenario_hist) 11 (ranked_entry 1 1)
      { allocs := [true, false], store := [] } (some 42) 1000
      = some (-1, { allocs := [], store := scenario_blocks.take 1 }, some 42) ∧
    (process_block_report (oracle_store 10 scenario_hist) (plain_report oracle_world) 11
      [ranked_entry 1 1, ranked_entry 1 1]
      { cycles := 0, fmts := List.replicate 6 zero_fmt }
      { allocs := [true, false], store := [] } 1000).map
        (fun r => (r.1.cycles, r.2.store))
      = some (100, scenario_blocks.take 1 ++ scenario_blocks) ∧
    (block_info__create_report (oracle_store 10 scenario_hist) (plain_report oracle_world)
      11 [[ranked_entry 1 1, ranked_entry 1 1]]
      { allocs := [true, true, false], store := [] } 1000).map
        (fun r => (r.1.map (fun reports => reports.map (fun report => report.cycles)),
          r.2.store))
      = some (some [100], scenario_blocks.take 1 ++ scenario_blocks) := by
  refine ⟨by decide, by decide, by decide⟩

/-- C12 (amended): if allocating or inserting a record fails part-way through
a pass over a symbol smaller than `2 ^ 32`, `block_info__process_sym` returns
`-1` and leaves the accumulator as it was; the store is left as the failing
step leaves it: the records before the failing one are inserted and stay, and
only the failing record is released. -/
theorem process_sym_failure (x : externs W) (he : hist_entry) (w : W) (acc : Option Nat)
    (total_cycles : Nat) (ch : Nat → cyc_hist)
    (hmap : he.ms.map ≠ NULL) (hsym : he.ms.sym ≠ NULL)
    (hch : cycles_hist_of x he.ms.sym = some ch)
    (hsize : x.symbol__size he.ms.sym < 2 ^ 32)
    (hfail : insert_blocks x { map := he.ms.map, sym := he.ms.sym } w
      (emitted_blocks x he total_cycles) = none)
    (fuel : Nat) (hfuel : x.symbol__size he.ms.sym < fuel) :
    ∃ pre bi rest w_mid,
      emitted_blocks x he total_cycles = pre ++ bi :: rest ∧
      insert_blocks x { map := he.ms.map, sym := he.ms.sym } w pre = some w_mid ∧
      insert_blocks x { map := he.ms.map, sym := he.ms.sym } w_mid [bi] = none ∧
      block_info__process_sym x fuel he w acc total_cycles =
        some (-1, insert_until_failure x { map := he.ms.map, sym := he.ms.sym } w_mid [bi],
          acc) := by
  have hnull : ¬ (he.ms.map = NULL ∨ he.ms.sym = NULL) := by
    intro h
    rcases h with h | h
    · exact hmap h
    · exact hsym h
  obtain ⟨acc', hrun, hacc⟩ := process_sym_total x he w acc total_cycles ch hnull hch hsize
    fuel hfuel
  obtain ⟨pre, bi, rest, w_mid, hsplit, hpre, hbi, hworld⟩ :=
    insert_blocks_failure_split x _ _ w hfail
  refine ⟨pre, bi, rest, w_mid, hsplit, hpre, hbi, ?_⟩
  rw [hrun, hacc (by simp [hfail]), hworld]
  simp [hfail]

/-- C12 (witness): the scenario with a failing second allocation; the record
of offset `5` is inserted and stays, the accumulator keeps `42`. -/
theorem process_sym_failure_witness :
    ∃ pre bi rest w_mid,
      emitted_blocks (oracle_store 10 scenario_hist) (ranked_entry 1 1) 1000
        = pre ++ bi :: rest ∧
      insert_blocks (oracle_store 10 scenario_hist)
        { map := (ranked_entry 1 1).ms.map, sym := (ranked_entry 1 1).ms.sym }
        { allocs := [true, false], store := [] } pre = some w_mid ∧
      insert_blocks (oracle_store 10 scenario_hist)
        { map := (ranked_entry 1 1).ms.map, sym := (ranked_entry 1 1).ms.sym }
        w_mid [bi] = none ∧
      block_info__process_sym (oracle_store 10 scenario_hist) 11 (ranked_entry 1 1)
        { allocs := [true, false], store := [] } (some 42) 1000 =
        some (-1, insert_until_failure (oracle_store 10 scenario_hist)
          { map := (ranked_entry 1 1).ms.map, sym := (ranked_entry 1 1).ms.sym }
          w_mid [bi], some 42) :=
  process_sym_failure (oracle_store 10 scenario_hist) (ranked_entry 1 1)
    { allocs := [true, false], store := [] } (some 42) 1000 scenario_hist
    (by decide) (by decide) rfl (by decide) (by decide) 11 (by decide)

/-! ## Properties of the column values -/

/-- C14: the average-cycles percent computed by `block_cycles_pct_entry` is
`100.0 * (avg / block_cycles)` with `avg = cycles_aggr / num_aggr` in
truncating integer division when both `num_aggr` and the group's cycle sum are
nonzero; when either is zero it is `0.0`, whatever the division would give.
The `double` operations are parameters; the one fact used about them is
`100.0 * 0.0 = 0.0`. -/
theorem block_cycles_pct_entry_value {F : Type} (ops : double_ops F) (fmt : block_fmt)
    (hpp_size : Nat) (he : hist_entry)
    (hzero : ops.mul (ops.lit 100) ops.zero = ops.zero) :
    (fmt.block_cycles ≠ 0 ∧ he.block_info.num_aggr ≠ 0 →
      (block_cycles_pct_entry ops fmt hpp_size he).1 =
        ops.mul (ops.lit 100)
          (ops.div (ops.of_u64 (he.block_info.cycles_aggr / he.block_info.num_aggr))
            (ops.of_u64 fmt.block_cycles))) ∧
    (fmt.block_cycles = 0 ∨ he.block_info.num_aggr = 0 →
      ∀ d : F → F → F,
        (block_cycles_pct_entry { ops with div := d } fmt hpp_size he).1 = ops.zero) := by
  constructor
  · intro h
    simp only [block_cycles_pct_entry]
    rw [if_pos h]
  · intro h d
    have hn : ¬ (fmt.block_cycles ≠ 0 ∧ he.block_info.num_aggr ≠ 0) := by
      rintro ⟨h1, h2⟩
      rcases h with h | h
      · exact h1 h
      · exact h2 h
    simp only [block_cycles_pct_entry]
    rw [if_neg hn]
    exact hzero

/-- C14 (witness): in exact arithmetic, `cycles_aggr = 101` and
`num_aggr = 2` give the average `50`, which is `25` percent of a group sum of
`200`; a group sum of `0` or a sample count of `0` gives `0`. -/
theorem block_cycles_pct_entry_value_witness :
    (block_cycles_pct_entry exact_ops (stamped_fmt 200) 64 (sampled_entry 101 2)).1 = 25 ∧
    (block_cycles_pct_entry exact_ops (stamped_fmt 0) 64 (sampled_entry 101 2)).1 = 0 ∧
    (block_cycles_pct_entry exact_ops (stamped_fmt 200) 64 (sampled_entry 101 0)).1 = 0 :=
  ⟨((block_cycles_pct_entry_value exact_ops (stamped_fmt 200) 64 (sampled_entry 101 2)
      (by simp [exact_ops])).1 ⟨by decide, by decide⟩).trans
      (by norm_num [exact_ops, sampled_entry, stamped_fmt]),
   (block_cycles_pct_entry_value exact_ops (stamped_fmt 0) 64 (sampled_entry 101 2)
      (by simp [exact_ops])).2 (Or.inl rfl) exact_ops.div,
   (block_cycles_pct_entry_value exact_ops (stamped_fmt 200) 64 (sampled_entry 101 0)
      (by simp [exact_ops])).2 (Or.inr rfl) exact_ops.div⟩

/-- C16: for every block and every resolver, the range label is the text
`[<start line> -> <end line>]` when both endpoints resolve to something other
than the unknown sentinel; when either endpoint resolves to the sentinel, the
label is made of the two hexadecimal offsets `start` and `end` and of no
resolved line. -/
theorem block_range_entry_label (mem : Nat → symbol)
    (map__srcline : Nat → Nat → Nat → Option (List Char)) (fmt : block_fmt)
    (hpp_size : Nat) (he : hist_entry) :
    (∀ s e,
      map__srcline he.ms.map (u64_add (mem he.block_info.sym).start he.block_info.start)
        he.ms.sym = some s →
      map__srcline he.ms.map (u64_add (mem he.block_info.sym).start he.block_info.end_)
        he.ms.sym = some e →
      (block_range_entry mem map__srcline fmt hpp_size he).1 =
        scnprintf_text 128 (srcline_label s e)) ∧
    (map__srcline he.ms.map (u64_add (mem he.block_info.sym).start he.block_info.start)
        he.ms.sym = none ∨
      map__srcline he.ms.map (u64_add (mem he.block_info.sym).start he.block_info.end_)
        he.ms.sym = none →
      (block_range_entry mem map__srcline fmt hpp_size he).1 =
        scnprintf_text 128 (hex_label he.block_info.start he.block_info.end_)) := by
  constructor
  · intro s e hs he'
    simp only [block_range_entry, hs, he']
  · intro h
    simp only [block_range_entry]
    rcases h with h | h
    · rw [h]
    · rw [h]
      cases map__srcline he.ms.map (u64_add (mem he.block_info.sym).start
        he.block_info.start) he.ms.sym <;> rfl

/-- C16 (witness): a block with start `16` and end `31` of a symbol at address
`4096`.  With only the start resolved the label shows both offsets in
hexadecimal; with both resolved it shows both source lines. -/
theorem block_range_entry_label_witness :
    (block_range_entry same_name_mem half_resolver (stamped_fmt 0) 128
      (sampled_entry 101 2)).1 = "[     10 ->      1f]".toList ∧
    (block_range_entry same_name_mem full_resolver (stamped_fmt 0) 128
      (sampled_entry 101 2)).1 = "[a.c:7 -> a.c:7]".toList :=
  ⟨((block_range_entry_label same_name_mem half_resolver (stamped_fmt 0) 128
      (sampled_entry 101 2)).2 (Or.inr (by decide))).trans (by decide),
   ((block_range_entry_label same_name_mem full_resolver (stamped_fmt 0) 128
      (sampled_entry 101 2)).1 _ _ rfl rfl).trans (by decide)⟩

/-! ## Properties of the report of one group -/

/-- In a world where no allocation and no insertion fails, the loop never
returns `-1`. -/
theorem process_sym_loop_never_fails (x : externs W) (sym : Nat) (al : addr_location)
    (ch : Nat → cyc_hist) (total_cycles : Nat)
    (halloc : ∀ w, (x.zalloc w).1 = true)
    (hadd : ∀ w al bi, (x.hists__add_entry_block w al bi).1 = true) :
    ∀ (fuel i c : Nat) (w : W) (ret c' : _) (w' : W),
      process_sym_loop x sym al ch total_cycles fuel i c w = some (ret, c', w') →
      ret = 0 := by
  intro fuel
  induction fuel with
  | zero =>
    intro i c w ret c' w' h
    simp [process_sym_loop] at h
  | succ f ih =>
    intro i c w ret c' w' h
    unfold process_sym_loop at h
    by_cases hlt : i < x.symbol__size sym
    · rw [if_pos hlt] at h
      by_cases hz : (ch i).num_aggr = 0
      · have hz' : ¬ (ch i).num_aggr ≠ 0 := fun h => h hz
        rw [if_neg hz'] at h
        exact ih _ _ _ _ _ _ h
      · rw [if_pos hz] at h
        unfold block_info__new at h
        obtain ⟨ok, w1, hza⟩ : ∃ ok w1, x.zalloc w = (ok, w1) := ⟨_, _, rfl⟩
        have hok : ok = true := by
          have := halloc w
          rw [hza] at this
          exact this
        subst hok
        simp only [hza, loop_body_block] at h
        obtain ⟨ok2, w2, had⟩ : ∃ ok2 w2, x.hists__add_entry_block w1 al
            (loop_block sym ch total_cycles i) = (ok2, w2) := ⟨_, _, rfl⟩
        have hok2 : ok2 = true := by
          have := hadd w1 al (loop_block sym ch total_cycles i)
          rw [had] at this
          exact this
        subst hok2
        simp only [had] at h
        exact ih _ _ _ _ _ _ h
    · rw [if_neg hlt] at h
      simp only [Option.some.injEq, Prod.mk.injEq] at h
      exact h.1.symm

/-- In a world where no allocation and no insertion fails, a call that returns
returns `0`. -/
theorem process_sym_never_fails (x : externs W) (fuel : Nat) (he : hist_entry) (w : W)
    (acc : Option Nat) (total_cycles : Nat)
    (halloc : ∀ w, (x.zalloc w).1 = true)
    (hadd : ∀ w al bi, (x.hists__add_entry_block w al bi).1 = true)
    (ret : Int) (w' : W) (acc' : Option Nat)
    (h : block_info__process_sym x fuel he w acc total_cycles = some (ret, w', acc')) :
    ret = 0 := by
  rw [process_sym_unfold] at h
  by_cases hnull : he.ms.map = NULL ∨ he.ms.sym = NULL
  · rw [if_pos hnull] at h
    simp only [Option.some.injEq, Prod.mk.injEq] at h
    exact h.1.symm
  · rw [if_neg hnull] at h
    cases hch : cycles_hist_of x he.ms.sym with
    | none =>
      rw [hch] at h
      simp only [Option.some.injEq, Prod.mk.injEq] at h
      exact h.1.symm
    | some ch =>
      rw [hch] at h
      simp only at h
      cases hloop : process_sym_loop x he.ms.sym { map := he.ms.map, sym := he.ms.sym } ch
          total_cycles fuel 0 0 w with
      | none =>
        rw [hloop] at h
        simp at h
      | some r =>
        obtain ⟨ret0, cycles, w1⟩ := r
        have hret0 := process_sym_loop_never_fails x _ _ ch total_cycles halloc hadd
          fuel 0 0 w ret0 cycles w1 hloop
        subst hret0
        rw [hloop] at h
        simp only [if_true, Option.some.injEq, Prod.mk.injEq] at h
        exact h.1.symm

/-- In a world where no allocation and no insertion fails, the loop over the
entries of a group adds to the cycle sum the averages of all emitted blocks,
in arithmetic modulo `2 ^ 64`. -/
theorem process_entries_sum (x : externs W) (fuel : Nat) (total_cycles : Nat)
    (halloc : ∀ w, (x.zalloc w).1 = true)
    (hadd : ∀ w al bi, (x.hists__add_entry_block w al bi).1 = true) :
    ∀ (hists : List hist_entry) (w : W) (cycles : Nat) (w' : W) (cycles' : Nat),
      cycles < 2 ^ 64 →
      process_entries x fuel total_cycles hists w cycles = some (w', cycles') →
      cycles' = (cycles + group_avg_cycles_sum x total_cycles hists) % 2 ^ 64 := by
  intro hists
  induction hists with
  | nil =>
    intro w cycles w' cycles' hc h
    simp only [process_entries, Option.some.injEq, Prod.mk.injEq] at h
    simp only [group_avg_cycles_sum, List.map_nil, List.sum_nil, Nat.add_zero]
    rw [← h.2]
    exact (Nat.mod_eq_of_lt hc).symm
  | cons he rest ih =>
    intro w cycles w' cycles' hc h
    unfold process_entries at h
    cases hrun : block_info__process_sym x fuel he w (some cycles) total_cycles with
    | none =>
      rw [hrun] at h
      simp at h
    | some r =>
      obtain ⟨ret, w1, acc⟩ := r
      rw [hrun] at h
      simp only at h
      have hret := process_sym_never_fails x fuel he w (some cycles) total_cycles
        halloc hadd ret w1 acc hrun
      subst hret
      have hacc := (process_sym_success x fuel he w w1 (some cycles) acc total_cycles
        (fun a ha => by cases ha; exact hc) hrun).1
      simp only [Option.map_some'] at hacc
      subst hacc
      simp only [Option.getD_some] at h
      have hrest := ih w1 _ w' cycles' (Nat.mod_lt _ (by decide)) h
      rw [hrest]
      simp only [group_avg_cycles_sum, List.map_cons, List.sum_cons]
      rw [add_mod_assoc]

theorem stamp_totals_getElem? (total_cycles cycles : Nat) :
    ∀ (n i : Nat) (fmts : List block_fmt) (j : Nat),
      (stamp_totals total_cycles cycles n i fmts)[j]? =
        if i ≤ j ∧ j < i + n then (fmts[j]?).map (stamped total_cycles cycles)
        else fmts[j]? := by
  intro n
  induction n with
  | zero =>
    intro i fmts j
    rw [if_neg (by omega)]
    rfl
  | succ n ih =>
    intro i fmts j
    unfold stamp_totals
    rw [ih]
    by_cases hji : j = i
    · subst hji
      rw [if_neg (by omega), if_pos (by omega)]
      by_cases hlen : j < fmts.length
      · rw [List.getElem?_set_self hlen, List.getElem?_eq_getElem hlen]
        simp [stamped, List.getD_eq_getElem?_getD, List.getElem?_eq_getElem hlen]
      · have hnone : fmts[j]? = none := List.getElem?_eq_none (by omega)
        rw [List.getElem?_set, if_pos rfl, if_neg hlen, hnone]
        rfl
    · have hne : i ≠ j := fun h => hji h.symm
      rw [List.getElem?_set_ne hne]
      by_cases hc : i + 1 ≤ j ∧ j < i + 1 + n
      · rw [if_pos hc, if_pos (by omega)]
      · rw [if_neg hc, if_neg (by omega)]

theorem stamp_totals_length (total_cycles cycles : Nat) :
    ∀ (n i : Nat) (fmts : List block_fmt),
      (stamp_totals total_cycles cycles n i fmts).length = fmts.length := by
  intro n
  induction n with
  | zero =>
    intro i fmts
    rfl
  | succ n ih =>
    intro i fmts
    unfold stamp_totals
    rw [ih, List.length_set]

theorem stamp_totals_idempotent (total_cycles cycles n : Nat) (fmts : List block_fmt) :
    stamp_totals total_cycles cycles n 0 (stamp_totals total_cycles cycles n 0 fmts) =
      stamp_totals total_cycles cycles n 0 fmts := by
  apply List.ext_getElem?
  intro j
  rw [stamp_totals_getElem?, stamp_totals_getElem?]
  by_cases hc : 0 ≤ j ∧ j < 0 + n
  · simp only [if_pos hc]
    cases fmts[j]? with
    | none => rfl
    | some f => rfl
  · simp only [if_neg hc]

theorem stamp_totals_mem (total_cycles cycles : Nat) (fmts : List block_fmt)
    (f : block_fmt) (hf : f ∈ stamp_totals total_cycles cycles fmts.length 0 fmts) :
    f.total_cycles = total_cycles ∧ f.block_cycles = cycles := by
  obtain ⟨j, hj⟩ := List.mem_iff_getElem?.mp hf
  rw [stamp_totals_getElem?] at hj
  by_cases hlen : j < fmts.length
  · rw [if_pos (by omega), List.getElem?_eq_getElem hlen] at hj
    simp only [Option.map_some', Option.some.injEq] at hj
    rw [← hj]
    exact ⟨rfl, rfl⟩
  · rw [if_neg (by omega), List.getElem?_eq_none (by omega)] at hj
    cases hj

theorem register_block_columns_length (rx : report_externs W) :
    ∀ (n i : Nat) (fmts : List block_fmt) (w : W),
      (register_block_columns rx n i fmts w).1.length = fmts.length := by
  intro n
  induction n with
  | zero =>
    intro i fmts w
    rfl
  | succ n ih =>
    intro i fmts w
    unfold register_block_columns
    simp only
    rw [ih, List.length_set]

/-- The report of a group is produced: when every entry of the group is
skipped or has a symbol size below `2 ^ 32`, fuel above every symbol size
makes `process_block_report` return. -/
theorem process_block_report_returns (x : externs W) (rx : report_externs W) (fuel : Nat)
    (total_cycles : Nat) (report : block_report)
    (hists : List hist_entry)
    (hsize : ∀ he ∈ hists, he.ms.map = NULL ∨ he.ms.sym = NULL ∨
      cycles_hist_of x he.ms.sym = none ∨ x.symbol__size he.ms.sym < 2 ^ 32)
    (hfuel : ∀ he ∈ hists, x.symbol__size he.ms.sym < fuel) (w : W) :
    ∃ r w', process_block_report x rx fuel hists report w total_cycles = some (r, w') := by
  have hentries : ∀ (hs : List hist_entry), (∀ he ∈ hs, he ∈ hists) →
      ∀ (w : W) (cycles : Nat),
        ∃ p, process_entries x fuel total_cycles hs w cycles = some p := by
    intro hs
    induction hs with
    | nil =>
      intro _ w cycles
      exact ⟨_, rfl⟩
    | cons he rest ih =>
      intro hsub w cycles
      have hmem : he ∈ hists := hsub he (List.mem_cons_self _ _)
      obtain ⟨⟨ret, w1, acc'⟩, hrun⟩ := process_sym_returns x he w (some cycles)
        total_cycles (hsize he hmem) fuel (hfuel he hmem)
      obtain ⟨p, hp⟩ := ih (fun h hh => hsub h (List.mem_cons_of_mem _ hh)) w1
        (acc'.getD cycles)
      refine ⟨p, ?_⟩
      rw [process_entries, hrun]
      exact hp
  obtain ⟨p, hp⟩ := hentries hists (fun _ h => h) (init_block_hist rx report.fmts w).2
    report.cycles
  obtain ⟨w1, cycles⟩ := p
  unfold process_block_report
  simp only [hp]
  exact ⟨_, _, rfl⟩

/-- C18: after `process_block_report` on a group, in a world where no
allocation and no insertion fails and with the report's cycle sum initially
`0`, the report's cycle sum is the sum over the blocks emitted for all entries
of the group of `cycles_aggr / num_aggr` (truncating), taken in the 64-bit
arithmetic of the field; each of the `PERF_HPP_REPORT__BLOCK_MAX_INDEX` column
descriptors carries the session total passed in and that cycle sum; and
stamping the same values once more changes no descriptor. -/
theorem process_block_report_totals (x : externs W) (rx : report_externs W) (fuel : Nat)
    (hists : List hist_entry) (report : block_report) (w : W) (total_cycles : Nat)
    (r : block_report) (w' : W)
    (halloc : ∀ w, (x.zalloc w).1 = true)
    (hadd : ∀ w al bi, (x.hists__add_entry_block w al bi).1 = true)
    (hzero : report.cycles = 0)
    (hlen : report.fmts.length = rx.PERF_HPP_REPORT__BLOCK_MAX_INDEX)
    (h : process_block_report x rx fuel hists report w total_cycles = some (r, w')) :
    r.cycles = group_avg_cycles_sum x total_cycles hists % 2 ^ 64 ∧
    (group_avg_cycles_sum x total_cycles hists < 2 ^ 64 →
      r.cycles = group_avg_cycles_sum x total_cycles hists) ∧
    r.fmts.length = rx.PERF_HPP_REPORT__BLOCK_MAX_INDEX ∧
    (∀ f ∈ r.fmts, f.total_cycles = total_cycles ∧ f.block_cycles = r.cycles) ∧
    stamp_totals total_cycles r.cycles rx.PERF_HPP_REPORT__BLOCK_MAX_INDEX 0 r.fmts
      = r.fmts := by
  unfold process_block_report at h
  simp only at h
  cases hrun : process_entries x fuel total_cycles hists (init_block_hist rx report.fmts w).2
      report.cycles with
  | none =>
    rw [hrun] at h
    simp at h
  | some p =>
    obtain ⟨w1, cycles⟩ := p
    rw [hrun] at h
    simp only [Option.some.injEq, Prod.mk.injEq] at h
    obtain ⟨hr, _⟩ := h
    have hinit : (init_block_hist rx report.fmts w).1.length
        = rx.PERF_HPP_REPORT__BLOCK_MAX_INDEX := by
      unfold init_block_hist
      simp only
      rw [register_block_columns_length, hlen]
    have hsum := process_entries_sum x fuel total_cycles halloc hadd hists _ _ w1 cycles
      (by rw [hzero]; decide) hrun
    rw [hzero, Nat.zero_add] at hsum
    subst hr
    simp only
    refine ⟨hsum, fun hsmall => ?_, ?_, ?_, ?_⟩
    · rw [hsum, Nat.mod_eq_of_lt hsmall]
    · rw [stamp_totals_length, hinit]
    · intro f hf
      rw [← hinit] at hf
      exact stamp_totals_mem total_cycles cycles _ f hf
    · exact stamp_totals_idempotent total_cycles cycles _ _

/-- C18 (witness): the scenario group with two entries of the same symbol and
the session total `1000`: the cycle sum is `200` and all six descriptors carry
`1000` and `200`. -/
theorem process_block_report_totals_witness :
    process_block_report (list_store 10 scenario_hist) (plain_report (List block_info)) 11
      [ranked_entry 1 1, ranked_entry 1 1]
      { cycles := 0, fmts := List.replicate 6 zero_fmt } [] 1000
      = some (scenario_report, scenario_blocks ++ scenario_blocks) ∧
    scenario_report.cycles = 200 ∧
    (∀ f ∈ scenario_report.fmts, f.total_cycles = 1000 ∧ f.block_cycles = 200) :=
  ⟨by decide, rfl,
   (process_block_report_totals (list_store 10 scenario_hist)
      (plain_report (List block_info)) 11 [ranked_entry 1 1, ranked_entry 1 1]
      { cycles := 0, fmts := List.replicate 6 zero_fmt } [] 1000
      scenario_report (scenario_blocks ++ scenario_blocks)
      (fun _ => rfl) (fun _ _ _ => rfl) rfl rfl (by decide)).2.2.2.1⟩

/-! ## Duplicates and denominators -/

/-- One iteration of the loop on a sampled offset whose record is allocated
and inserted. -/
theorem process_sym_loop_emit (x : externs W) (sym : Nat) (al : addr_location)
    (ch : Nat → cyc_hist) (total_cycles : Nat) (fuel i c : Nat) (w w1 w2 : W)
    (hlt : i < x.symbol__size sym) (hz : (ch i).num_aggr ≠ 0)
    (hza : x.zalloc w = (true, w1))
    (had : x.hists__add_entry_block w1 al (loop_block sym ch total_cycles i) = (true, w2)) :
    process_sym_loop x sym al ch total_cycles (fuel + 1) i c w =
      process_sym_loop x sym al ch total_cycles fuel ((i + 1) % UINT_MOD)
        (u64_add c ((ch i).cycles_aggr / (ch i).num_aggr)) w2 := by
  rw [process_sym_loop, if_pos hlt, if_pos hz]
  unfold block_info__new
  simp only [hza, loop_body_block, had]
  rfl

/-- One iteration of the loop on a sampled offset whose allocation fails. -/
theorem process_sym_loop_alloc_fails (x : externs W) (sym : Nat) (al : addr_location)
    (ch : Nat → cyc_hist) (total_cycles : Nat) (fuel i c : Nat) (w w1 : W)
    (hlt : i < x.symbol__size sym) (hz : (ch i).num_aggr ≠ 0)
    (hza : x.zalloc w = (false, w1)) :
    process_sym_loop x sym al ch total_cycles (fuel + 1) i c w = some (-1, c, w1) := by
  rw [process_sym_loop, if_pos hlt, if_pos hz]
  unfold block_info__new
  simp only [hza]

/-- The loop passes `n` offsets without samples in `n` iterations; the counter
wraps when it reaches `2 ^ 32`. -/
theorem process_sym_loop_skip (x : externs W) (sym : Nat) (al : addr_location)
    (ch : Nat → cyc_hist) (total_cycles : Nat) :
    ∀ (n i : Nat), i < 2 ^ 32 → i + n ≤ 2 ^ 32 → i + n ≤ x.symbol__size sym →
      (∀ j, i ≤ j → j < i + n → (ch j).num_aggr = 0) →
      ∀ (fuel c : Nat) (w : W),
        process_sym_loop x sym al ch total_cycles (fuel + n) i c w =
          process_sym_loop x sym al ch total_cycles fuel ((i + n) % UINT_MOD) c w := by
  intro n
  induction n with
  | zero =>
    intro i hi _ _ _ fuel c w
    have hmod : (i + 0) % UINT_MOD = i := by
      unfold UINT_MOD
      omega
    rw [hmod]
    rfl
  | succ n ih =>
    intro i hi hwrap hsize hzero fuel c w
    have hstep : fuel + (n + 1) = (fuel + n) + 1 := by omega
    have hz' : ¬ (ch i).num_aggr ≠ 0 := fun h => h (hzero i (by omega) (by omega))
    rw [hstep, process_sym_loop, if_pos (by omega), if_neg hz']
    by_cases hnext : i + 1 < 2 ^ 32
    · have hmod : (i + 1) % UINT_MOD = i + 1 := by
        unfold UINT_MOD
        omega
      rw [hmod, ih (i + 1) hnext (by omega) (by omega)
        (fun j h1 h2 => hzero j (by omega) (by omega)) fuel c w]
      have hsum : i + 1 + n = i + (n + 1) := by omega
      rw [hsum]
    · have hn : n = 0 := by omega
      subst hn
      rfl

/-- The result of the whole pass from the result of its loop, for an entry
with mapping, symbol and histogram. -/
theorem process_sym_of_loop (x : externs W) (fuel : Nat) (he : hist_entry) (w : W)
    (acc : Option Nat) (total_cycles : Nat) (ch : Nat → cyc_hist)
    (ret : Int) (cycles : Nat) (w1 : W)
    (hnull : ¬ (he.ms.map = NULL ∨ he.ms.sym = NULL))
    (hch : cycles_hist_of x he.ms.sym = some ch)
    (hloop : process_sym_loop x he.ms.sym { map := he.ms.map, sym := he.ms.sym } ch
      total_cycles fuel 0 0 w = some (ret, cycles, w1)) :
    block_info__process_sym x fuel he w acc total_cycles =
      if ret = 0 then some (0, w1, acc.map (fun a => u64_add a cycles))
      else some (ret, w1, acc) := by
  rw [process_sym_unfold, if_neg hnull, hch]
  simp only
  rw [hloop]

/-- C19 (counterexample): a symbol of size `2 ^ 32` whose only sampled offset
is `0`, in a world where the third allocation fails.  The counter wraps twice
before the call returns `-1`: the record of offset `0` is handed to the store
twice, and the two records compare as `0`. -/
theorem process_sym_emits_duplicates :
    block_info__process_sym (oracle_store (2 ^ 32) first_hist) (2 ^ 33 + 1)
      (ranked_entry 1 1) { allocs := [true, true, false], store := [] } none 1000
      = some (-1, { allocs := [], store := [first_block, first_block] }, none) ∧
    block_info__cmp same_name_mem (with_block (ranked_entry 1 1) first_block)
      (with_block (ranked_entry 1 1) first_block) = 0 := by
  refine ⟨?_, by decide⟩
  have hzero : ∀ j, 1 ≤ j → j < 1 + (2 ^ 32 - 1) → (first_hist j).num_aggr = 0 := by
    intro j h1 _
    have hne : ¬ j = 0 := by omega
    unfold first_hist
    rw [if_neg hne]
    rfl
  have hsz : (oracle_store (2 ^ 32) first_hist).symbol__size 1 = 2 ^ 32 := rfl
  have hwrap : (1 + (2 ^ 32 - 1)) % UINT_MOD = 0 := by
    unfold UINT_MOD
    norm_num
  have hone : (0 + 1) % UINT_MOD = 1 := by
    unfold UINT_MOD
    norm_num
  have hloop : process_sym_loop (oracle_store (2 ^ 32) first_hist) 1 { map := 1, sym := 1 }
      first_hist 1000 (((0 + 1 + (2 ^ 32 - 1)) + 1 + (2 ^ 32 - 1)) + 1) 0 0
      { allocs := [true, true, false], store := [] }
      = some (-1, 14, { allocs := [], store := [first_block, first_block] }) := by
    rw [process_sym_loop_emit (oracle_store (2 ^ 32) first_hist) 1 { map := 1, sym := 1 }
      first_hist 1000 _ 0 0
      { allocs := [true, true, false], store := [] }
      { allocs := [true, false], store := [] }
      { allocs := [true, false], store := [first_block] }
      (by rw [hsz]; norm_num) (by decide) rfl (by decide), hone]
    rw [process_sym_loop_skip (oracle_store (2 ^ 32) first_hist) 1 _ first_hist 1000
      (2 ^ 32 - 1) 1 (by norm_num) (by norm_num) (by rw [hsz]; norm_num) hzero, hwrap]
    rw [process_sym_loop_emit (oracle_store (2 ^ 32) first_hist) 1 { map := 1, sym := 1 }
      first_hist 1000 _ 0 _
      { allocs := [true, false], store := [first_block] }
      { allocs := [false], store := [first_block] }
      { allocs := [false], store := [first_block, first_block] }
      (by rw [hsz]; norm_num) (by decide) rfl (by decide), hone]
    rw [process_sym_loop_skip (oracle_store (2 ^ 32) first_hist) 1 _ first_hist 1000
      (2 ^ 32 - 1) 1 (by norm_num) (by norm_num) (by rw [hsz]; norm_num) hzero, hwrap]
    rw [process_sym_loop_alloc_fails (oracle_store (2 ^ 32) first_hist) 1 _ first_hist 1000
      0 0 _ { allocs := [false], store := [first_block, first_block] }
      { allocs := [], store := [first_block, first_block] }
      (by rw [hsz]; norm_num) (by decide) rfl]
    decide
  have hfuel : 2 ^ 33 + 1 = ((0 + 1 + (2 ^ 32 - 1)) + 1 + (2 ^ 32 - 1)) + 1 := by norm_num
  rw [hfuel]
  exact (process_sym_of_loop (oracle_store (2 ^ 32) first_hist) _ (ranked_entry 1 1) _ none
    1000 first_hist (-1) 14 _ (by decide) rfl hloop).trans (by decide)

theorem u64_of_int_lt (z : Int) : u64_of_int z < 2 ^ 64 := by
  unfold u64_of_int U64_MOD
  omega

theorem offset_injective (a b : Nat) (ha : a < 2 ^ 32) (hb : b < 2 ^ 32)
    (h : u64_of_int (int_of_uint a) = u64_of_int (int_of_uint b)) : a = b := by
  unfold u64_of_int int_of_uint UINT_MOD U64_MOD at h
  have h1 : a % 2 ^ 32 = a := Nat.mod_eq_of_lt ha
  have h2 : b % 2 ^ 32 = b := Nat.mod_eq_of_lt hb
  rw [h1, h2] at h
  split_ifs at h <;> omega

/-- With the identical non-null symbol and 64-bit offsets, a result of `0`
needs equal starts and equal ends. -/
theorem block_info__cmp_zero_same_sym (mem : Nat → symbol) (left right : hist_entry)
    (hsym : left.block_info.sym = right.block_info.sym)
    (hnull : left.block_info.sym ≠ NULL)
    (hls : left.block_info.start < 2 ^ 64) (hrs : right.block_info.start < 2 ^ 64)
    (hle : left.block_info.end_ < 2 ^ 64) (hre : right.block_info.end_ < 2 ^ 64)
    (h : block_info__cmp mem left right = 0) :
    left.block_info.start = right.block_info.start ∧
    left.block_info.end_ = right.block_info.end_ := by
  have hnull' : right.block_info.sym ≠ NULL := hsym ▸ hnull
  unfold block_info__cmp at h
  simp only [hnull, hnull', hsym, or_self, if_false, if_true] at h
  by_cases hst : left.block_info.start = right.block_info.start
  · rw [if_pos hst] at h
    by_cases hen : left.block_info.end_ = right.block_info.end_
    · exact ⟨hst, hen⟩
    · rw [if_neg hen] at h
      exact absurd h (s64_sub_ne_zero _ _ hre hle (fun h' => hen h'.symm))
  · rw [if_neg hst] at h
    exact absurd h (s64_sub_ne_zero _ _ hrs hls (fun h' => hst h'.symm))

/-- C19 (amended): for every pair of block records sharing the identical
non-null symbol, with unsigned 64-bit offsets, `block_info__cmp` returns `0`
only if the starts are equal and the ends are equal; hence the blocks emitted
for one symbol by one aggregation pass over a symbol smaller than `2 ^ 32`
(with 64-bit block starts in its histogram) have pairwise distinct ends and
never compare as `0` with each other. -/
theorem emitted_blocks_not_duplicates (mem : Nat → symbol) (x : externs W)
    (he : hist_entry) (total_cycles : Nat)
    (hsize : x.symbol__size he.ms.sym < 2 ^ 32)
    (hstart : ∀ ch, cycles_hist_of x he.ms.sym = some ch → ∀ i, (ch i).start < 2 ^ 64) :
    (∀ left right : hist_entry,
      left.block_info.sym = right.block_info.sym → left.block_info.sym ≠ NULL →
      left.block_info.start < 2 ^ 64 → right.block_info.start < 2 ^ 64 →
      left.block_info.end_ < 2 ^ 64 → right.block_info.end_ < 2 ^ 64 →
      block_info__cmp mem left right = 0 →
      left.block_info.start = right.block_info.start ∧
      left.block_info.end_ = right.block_info.end_) ∧
    (emitted_blocks x he total_cycles).Pairwise
      (fun a b => a.end_ ≠ b.end_ ∧
        block_info__cmp mem (with_block he a) (with_block he b) ≠ 0) := by
  refine ⟨fun left right h1 h2 h3 h4 h5 h6 h7 =>
    block_info__cmp_zero_same_sym mem left right h1 h2 h3 h4 h5 h6 h7, ?_⟩
  unfold emitted_blocks
  by_cases hnull : he.ms.map = NULL ∨ he.ms.sym = NULL
  · rw [if_pos hnull]
    exact List.Pairwise.nil
  · rw [if_neg hnull]
    cases hch : cycles_hist_of x he.ms.sym with
    | none => exact List.Pairwise.nil
    | some ch =>
      simp only
      have hsym : he.ms.sym ≠ NULL := fun h => hnull (Or.inr h)
      rw [List.pairwise_map]
      refine (sampled_offsets_increasing ch 0 _).imp_of_mem ?_
      intro a b ha hb hab
      have ha' := (mem_sampled_offsets ch 0 _ a).mp ha
      have hb' := (mem_sampled_offsets ch 0 _ b).mp hb
      have hends : (loop_block he.ms.sym ch total_cycles a).end_ ≠
          (loop_block he.ms.sym ch total_cycles b).end_ := by
        intro h
        have := offset_injective a b (by omega) (by omega) h
        omega
      refine ⟨hends, fun hcmp => ?_⟩
      have := block_info__cmp_zero_same_sym mem
        (with_block he (loop_block he.ms.sym ch total_cycles a))
        (with_block he (loop_block he.ms.sym ch total_cycles b))
        rfl hsym (hstart ch hch a) (hstart ch hch b) (u64_of_int_lt _) (u64_of_int_lt _) hcmp
      exact hends this.2

/-- C19 (witness): the two blocks of the scenario have the ends `5` and `9`
and do not compare as `0`. -/
theorem emitted_blocks_not_duplicates_witness :
    emitted_blocks (list_store 10 scenario_hist) (ranked_entry 1 1) 1000
      = scenario_blocks ∧
    (emitted_blocks (list_store 10 scenario_hist) (ranked_entry 1 1) 1000).Pairwise
      (fun a b => a.end_ ≠ b.end_ ∧
        block_info__cmp same_name_mem (with_block (ranked_entry 1 1) a)
          (with_block (ranked_entry 1 1) b) ≠ 0) :=
  ⟨by decide,
   (emitted_blocks_not_duplicates same_name_mem (list_store 10 scenario_hist)
      (ranked_entry 1 1) 1000 (by decide)
      (fun ch hch i => by
        have hch' : ch = scenario_hist := by
          have h : cycles_hist_of (list_store 10 scenario_hist) (ranked_entry 1 1).ms.sym
              = some scenario_hist := rfl
          rw [h] at hch
          exact (Option.some.inj hch).symm
        subst hch'
        unfold scenario_hist
        split_ifs <;> decide)).2⟩

/-- The loop never hands a record with a zero aggregated sample count to the
store: what `hists__add_entry_block` does with such a record has no effect on
any run, whatever the fuel. -/
theorem process_sym_loop_zero_count_add (x : externs W)
    (g : W → addr_location → block_info → Bool × W) (sym : Nat) (al : addr_location)
    (ch : Nat → cyc_hist) (total_cycles : Nat) :
    ∀ (fuel i c : Nat) (w : W),
      process_sym_loop (with_zero_count_add x g) sym al ch total_cycles fuel i c w =
        process_sym_loop x sym al ch total_cycles fuel i c w := by
  intro fuel
  induction fuel with
  | zero =>
    intro i c w
    rfl
  | succ f ih =>
    intro i c w
    rw [process_sym_loop, process_sym_loop]
    have hsz : (with_zero_count_add x g).symbol__size sym = x.symbol__size sym := rfl
    have hnew : block_info__new (with_zero_count_add x g) w = block_info__new x w := rfl
    rw [hsz, hnew]
    by_cases hlt : i < x.symbol__size sym
    · rw [if_pos hlt, if_pos hlt]
      by_cases hz : (ch i).num_aggr = 0
      · have hz' : ¬ (ch i).num_aggr ≠ 0 := fun h => h hz
        rw [if_neg hz', if_neg hz']
        exact ih _ _ _
      · rw [if_pos hz, if_pos hz]
        unfold block_info__new
        obtain ⟨ok, w1, hza⟩ : ∃ ok w1, x.zalloc w = (ok, w1) := ⟨_, _, rfl⟩
        simp only [hza]
        cases ok with
        | false => rfl
        | true =>
          simp only [loop_body_block]
          have hadd : (with_zero_count_add x g).hists__add_entry_block w1 al
              (loop_block sym ch total_cycles i) =
              x.hists__add_entry_block w1 al (loop_block sym ch total_cycles i) := by
            have hz2 : ¬ (loop_block sym ch total_cycles i).num_aggr = 0 := hz
            show (if (loop_block sym ch total_cycles i).num_aggr = 0 then _ else _) = _
            rw [if_neg hz2]
          rw [hadd]
          obtain ⟨ok2, w2, had⟩ : ∃ ok2 w2, x.hists__add_entry_block w1 al
              (loop_block sym ch total_cycles i) = (ok2, w2) := ⟨_, _, rfl⟩
          simp only [had]
          cases ok2 with
          | false => rfl
          | true => exact ih _ _ _
    · rw [if_neg hlt, if_neg hlt]

/-- C20: every block record `block_info__process_sym` emits has a nonzero
`num_aggr`: what the store does with a record of zero `num_aggr` changes no
run of the pass, and every emitted record has `num_aggr ≠ 0`.  The division
`cycles_aggr / num_aggr` of the loop is applied to the record that is then
emitted, whose `num_aggr` is the bucket's count tested by the guard of the
loop.  The unguarded division of `block_avg_cycles_entry` divides by zero
exactly for a record with `num_aggr = 0`, hence for no emitted record. -/
theorem emitted_num_aggr_nonzero (x : externs W) (he : hist_entry) (total_cycles : Nat) :
    (∀ (g : W → addr_location → block_info → Bool × W) (fuel : Nat) (w : W)
        (acc : Option Nat),
      block_info__process_sym (with_zero_count_add x g) fuel he w acc total_cycles =
        block_info__process_sym x fuel he w acc total_cycles) ∧
    (∀ bi ∈ emitted_blocks x he total_cycles, bi.num_aggr ≠ 0) ∧
    (∀ (F : Type) (ops : double_ops F) (fmt : block_fmt) (hpp_size : Nat)
        (he' : hist_entry),
      block_avg_cycles_entry ops fmt hpp_size he' = none ↔ he'.block_info.num_aggr = 0) ∧
    (∀ bi ∈ emitted_blocks x he total_cycles,
      ∀ (F : Type) (ops : double_ops F) (fmt : block_fmt) (hpp_size : Nat),
        block_avg_cycles_entry ops fmt hpp_size (with_block he bi) ≠ none) ∧
    (∀ (bi0 : block_info) (sym : Nat) (bucket : cyc_hist) (offset : Int),
      (init_block_info bi0 sym bucket offset total_cycles).num_aggr = bucket.num_aggr) := by
  have hmem : ∀ bi ∈ emitted_blocks x he total_cycles, bi.num_aggr ≠ 0 := by
    intro bi hbi
    unfold emitted_blocks at hbi
    by_cases hnull : he.ms.map = NULL ∨ he.ms.sym = NULL
    · rw [if_pos hnull] at hbi
      cases hbi
    · rw [if_neg hnull] at hbi
      cases hch : cycles_hist_of x he.ms.sym with
      | none =>
        rw [hch] at hbi
        cases hbi
      | some ch =>
        rw [hch] at hbi
        simp only [List.mem_map] at hbi
        obtain ⟨j, hj, rfl⟩ := hbi
        exact ((mem_sampled_offsets ch 0 _ j).mp hj).2
  have hentry : ∀ (F : Type) (ops : double_ops F) (fmt : block_fmt) (hpp_size : Nat)
      (he' : hist_entry),
      block_avg_cycles_entry ops fmt hpp_size he' = none ↔
        he'.block_info.num_aggr = 0 := by
    intro F ops fmt hpp_size he'
    unfold block_avg_cycles_entry
    by_cases hz : he'.block_info.num_aggr = 0
    · simp [hz]
    · simp [hz]
  refine ⟨fun g fuel w acc => ?_, hmem, hentry, fun bi hbi F ops fmt hpp_size h => ?_,
    fun _ _ _ _ => rfl⟩
  · rw [process_sym_unfold, process_sym_unfold]
    have hch : cycles_hist_of (with_zero_count_add x g) he.ms.sym
        = cycles_hist_of x he.ms.sym := rfl
    rw [hch]
    by_cases hnull : he.ms.map = NULL ∨ he.ms.sym = NULL
    · rw [if_pos hnull, if_pos hnull]
    · rw [if_neg hnull, if_neg hnull]
      cases cycles_hist_of x he.ms.sym with
      | none => rfl
      | some ch =>
        simp only
        rw [process_sym_loop_zero_count_add]
  · exact hmem bi hbi ((hentry F ops fmt hpp_size (with_block he bi)).mp h)

/-- C20 (witness): the two emitted blocks of the scenario have the sample
counts `2` and `3`; a block with `cycles_aggr = 101` and `num_aggr = 2` shows
the average `50`, and a block with `num_aggr = 0` divides by zero. -/
theorem emitted_num_aggr_nonzero_witness :
    (emitted_blocks (list_store 10 scenario_hist) (ranked_entry 1 1) 1000).map
      (fun bi => bi.num_aggr) = [2, 3] ∧
    block_avg_cycles_entry exact_ops (stamped_fmt 200) 64 (sampled_entry 101 2)
      = some "        50".toList ∧
    block_avg_cycles_entry exact_ops (stamped_fmt 200) 64 (sampled_entry 101 0) = none :=
  ⟨by decide, by decide,
   ((emitted_num_aggr_nonzero (list_store 10 scenario_hist) (ranked_entry 1 1) 1000).2.2.1
      ℚ exact_ops (stamped_fmt 200) 64 (sampled_entry 101 0)).mpr rfl⟩

/-- The three branches of `cycles_string`, for any implementation of the
`double` operations: the suffix `M` from `1000000` on, the suffix `K` from
`1000` on, the plain decimal digits below; each text cut to the buffer. -/
theorem cycles_string_branches {F : Type} (ops : double_ops F) (cycles size : Nat) :
    (1000000 ≤ cycles → cycles_string ops cycles size =
      scnprintf_text size
        (ops.fmt_1f (ops.div (ops.of_u64 cycles) (ops.lit 1000000)) ++ ['M'])) ∧
    (1000 ≤ cycles → cycles < 1000000 → cycles_string ops cycles size =
      scnprintf_text size
        (ops.fmt_1f (ops.div (ops.of_u64 cycles) (ops.lit 1000)) ++ ['K'])) ∧
    (cycles < 1000 → cycles_string ops cycles size =
      scnprintf_text size (Nat.toDigits 10 cycles)) := by
  refine ⟨fun h => ?_, fun h1 h2 => ?_, fun h => ?_⟩
  · unfold cycles_string
    rw [if_pos h]
  · unfold cycles_string
    rw [if_neg (by omega), if_pos h1]
  · unfold cycles_string
    rw [if_neg (by omega), if_neg (by omega)]

end BlockInfo
